import Mathlib

/-!
# WirePacker: framing of an I2C payload

A shallow embedding of `src/WirePacker.h` (class `WirePacker`, declaration and
member functions).  The packer owns a buffer of `PACKER_BUFFER_LENGTH` bytes,
two `uint8_t` counters and an open flag.  Bytes and `uint8_t` counters are
natural numbers; every `uint8_t` store or increment is written with an explicit
`% 256`.  Values of type `size_t` are natural numbers, `int` results are `Int`.

The checksum class `WireCrc` is included by the header but is not part of the
sources; it is taken as a parameter (`WireCrc` below).
-/

namespace WirePacker

/-- Buffer size, `#define PACKER_BUFFER_LENGTH 128`. -/
def PACKER_BUFFER_LENGTH : Nat := 128

/-- Start byte, `const uint8_t frameStart_ = 0x02`. -/
def frameStart_ : Nat := 0x02

/-- End byte, `const uint8_t frameEnd_ = 0x04`. -/
def frameEnd_ : Nat := 0x04

end WirePacker

/-- The checksum collaborator `WireCrc` (header `WireCrc.h`, absent from the
sources), taken as a parameter.  `State` is the private state of the object and
`init` the state of a freshly declared `WireCrc crc8;`.  The fields `calc_`
and `update` stand for the member functions `calc` and `update` the packer
calls: each receives the bytes the pointer/length pair designates and yields
the new state and the returned `uint8_t`. -/
structure WireCrc where
  State : Type
  init : State
  calc_ : State → List Nat → State × Nat
  update : State → List Nat → State × Nat

/-- The private data members of `class WirePacker`:
`uint8_t buffer_[PACKER_BUFFER_LENGTH]`, `uint8_t index_`,
`uint8_t totalLength_`, `bool isPacketOpen_`. -/
structure WirePacker where
  buffer_ : List Nat
  index_ : Nat
  totalLength_ : Nat
  isPacketOpen_ : Bool
deriving DecidableEq, Repr

namespace WirePacker

/-- `void WirePacker::reset()`. -/
def reset (s : WirePacker) : WirePacker :=
  { buffer_ := s.buffer_.set 0 frameStart_
    index_ := 2
    totalLength_ := 2
    isPacketOpen_ := true }

/-- `size_t WirePacker::write(uint8_t data)`: the returned count and the state
afterwards.  The argument is converted to `uint8_t` (`% 256`); `++index_` is a
`uint8_t` increment. -/
def write (s : WirePacker) (data : Nat) : Nat × WirePacker :=
  if !s.isPacketOpen_ then
    (0, s)
  else if s.totalLength_ ≥ PACKER_BUFFER_LENGTH - 2 then
    (0, s)
  else
    let index1 := (s.index_ + 1) % 256
    (1, { s with buffer_ := s.buffer_.set s.index_ (data % 256)
                 index_ := index1
                 totalLength_ := index1 })

/-- The loop of `write(const uint8_t *data, size_t quantity)` from counter `i`
on, `ds` being the bytes `data[i], ..., data[quantity-1]`. -/
def writeLoop (s : WirePacker) : List Nat → Nat → Nat × WirePacker
  | [], i => (i, s)
  | d :: ds, i =>
    let r := s.write d
    if r.1 = 0 then (i, r.2) else writeLoop r.2 ds (i + 1)

/-- `size_t WirePacker::write(const uint8_t *data, size_t quantity)`, the list
`data` being the `quantity` bytes the pointer designates. -/
def writeBytes (s : WirePacker) (data : List Nat) : Nat × WirePacker :=
  writeLoop s data 0

/-- `size_t packetLength() const`: the sum is computed in `int`, no wrap. -/
def packetLength (s : WirePacker) : Nat :=
  if s.isPacketOpen_ then s.totalLength_ + 2 else s.totalLength_

/-- `void WirePacker::end()`.  Both `++index_` are `uint8_t` increments and
`payloadLength` is a `uint8_t` difference (`% 256`).  The checksum object is
local: it is primed with the one byte `totalLength_` and updated with the
`payloadLength` bytes at `buffer_ + 2`.  `index_ - 2` is an `int`; a store at
an index outside the list leaves the list as it is. -/
def end_ (crc8 : WireCrc) (s : WirePacker) : WirePacker :=
  let index1 := (s.index_ + 1) % 256
  let buffer1 := s.buffer_.set index1 frameEnd_
  let index2 := (index1 + 1) % 256
  let totalLength := index2
  let buffer2 := buffer1.set 1 totalLength
  let payloadLength := (totalLength + 256 - 4) % 256
  let st := (crc8.calc_ crc8.init [totalLength]).1
  let crc := (crc8.update st ((buffer2.drop 2).take payloadLength)).2 % 256
  let buffer3 := if 2 ≤ index2 then buffer2.set (index2 - 2) crc else buffer2
  { buffer_ := buffer3
    index_ := 0
    totalLength_ := totalLength
    isPacketOpen_ := false }

/-- `size_t WirePacker::available()`.  The difference of the two `uint8_t`
is an `int`, converted to the 32-bit `size_t` of the target.  The function
assigns no member, so it is a function of the state alone. -/
def available (s : WirePacker) : Nat :=
  if s.isPacketOpen_ then 0
  else (((s.totalLength_ : Int) - (s.index_ : Int)) % (2 ^ 32 : Int)).toNat

/-- `int WirePacker::read()`: the returned `int` and the state afterwards.
A load at an index outside the list yields 0. -/
def read (s : WirePacker) : Int × WirePacker :=
  if !s.isPacketOpen_ && s.index_ < s.totalLength_ then
    (((s.buffer_.getD s.index_ 0 : Nat) : Int), { s with index_ := (s.index_ + 1) % 256 })
  else
    (-1, s)

/-- The drain loop of a caller, `while ((v = read()) != -1) out.push(v)`, with a
bound `fuel` on the number of calls of `read()`; `none` when the bound is
reached before `read()` returned -1. -/
def readAll : Nat → WirePacker → Option (List Int × WirePacker)
  | 0, _ => none
  | fuel + 1, s =>
    let r := s.read
    if r.1 = -1 then some ([], r.2)
    else
      match readAll fuel r.2 with
      | none => none
      | some (vs, s') => some (r.1 :: vs, s')

/-- State after `k` successive calls of `read()`. -/
def readN : Nat → WirePacker → WirePacker
  | 0, s => s
  | k + 1, s => readN k s.read.2

/-- A caller writing the bytes of `data` one `write(byte)` call after the
other, whatever each call returns: the list of returned counts and the state
afterwards. -/
def writeEach (s : WirePacker) : List Nat → List Nat × WirePacker
  | [] => ([], s)
  | d :: ds =>
    let r := s.write d
    let rest := writeEach r.2 ds
    (r.1 :: rest.1, rest.2)

/-- A checksum instance for concrete evaluations: the state is the running sum
of the bytes modulo 256, `calc` restarts it from 0. -/
def sumCrc : WireCrc :=
  { State := Nat
    init := 0
    calc_ := fun _ d => (d.sum % 256, d.sum % 256)
    update := fun st d => ((st + d.sum) % 256, (st + d.sum) % 256) }

/-- A buffer of 128 zero bytes in an otherwise arbitrary closed state, used as
a concrete start state. -/
def zeroState : WirePacker :=
  { buffer_ := List.replicate 128 0, index_ := 0, totalLength_ := 0, isPacketOpen_ := false }

/-- A closed state whose buffer still carries an earlier frame (128 bytes
`0xEE`), used as a second concrete start state. -/
def staleState : WirePacker :=
  { buffer_ := List.replicate 128 0xEE, index_ := 9, totalLength_ := 100,
    isPacketOpen_ := false }

/-- The checksum byte `end()` stores for length byte `len` and payload
`payload`: what `update` returns after `calc` was given the one byte `len`,
as a `uint8_t`. -/
def crcOf (crc8 : WireCrc) (len : Nat) (payload : List Nat) : Nat :=
  (crc8.update (crc8.calc_ crc8.init [len]).1 payload).2 % 256

/-- The frame of the packet format of the file comment for `payload`:
start byte, packet length, data, CRC8 of packet length and data, end byte. -/
def frameOf (crc8 : WireCrc) (payload : List Nat) : List Nat :=
  frameStart_ :: (payload.length + 4) ::
    (payload ++ [crcOf crc8 (payload.length + 4) payload, frameEnd_])

/-- An open packer that holds the payload bytes `payload`: the flag is set,
write position and accumulated length are `2 + P`, the buffer has its 128
bytes, starts with the start byte and carries `payload` from offset 2 on. -/
def OpenHolding (s : WirePacker) (payload : List Nat) : Prop :=
  s.isPacketOpen_ = true ∧ s.index_ = 2 + payload.length ∧
  s.totalLength_ = 2 + payload.length ∧ payload.length ≤ PACKER_BUFFER_LENGTH - 4 ∧
  s.buffer_.length = PACKER_BUFFER_LENGTH ∧ s.buffer_.head? = some frameStart_ ∧
  (s.buffer_.drop 2).take payload.length = payload

/-- A closed packer whose buffer starts with the finished frame `frame`, the
read cursor being at `cursor`. -/
def ClosedFrame (s : WirePacker) (frame : List Nat) (cursor : Nat) : Prop :=
  s.isPacketOpen_ = false ∧ s.index_ = cursor ∧ cursor ≤ frame.length ∧
  s.totalLength_ = frame.length ∧ frame.length ≤ PACKER_BUFFER_LENGTH ∧
  s.buffer_.length = PACKER_BUFFER_LENGTH ∧ s.buffer_.take frame.length = frame

/-- The buffer index `write(uint8_t)` stores at (`buffer_[index_] = data`);
`none` when the call returns 0 before the store. -/
def writeStoreIndex (s : WirePacker) : Option Nat :=
  if !s.isPacketOpen_ then none
  else if s.totalLength_ ≥ PACKER_BUFFER_LENGTH - 2 then none
  else some s.index_

/-- The buffer index `read()` loads from (`value = buffer_[index_]`); `none`
when the condition of the `if` fails and no load takes place. -/
def readLoadIndex (s : WirePacker) : Option Nat :=
  if !s.isPacketOpen_ && s.index_ < s.totalLength_ then some s.index_ else none

/-- The buffer indices `end()` stores at, in program order: `index_` after the
first `++index_` (end byte), the constant 1 (length byte) and the `int`
`index_ - 2` after the second `++index_` (checksum byte). -/
def endStoreIndices (s : WirePacker) : List Int :=
  let index1 := (s.index_ + 1) % 256
  let index2 := (index1 + 1) % 256
  [(index1 : Int), 1, (index2 : Int) - 2]

/-- The value of `uint8_t payloadLength = totalLength_ - 4` in `end()`, the
number of bytes at `buffer_ + 2` handed to `update`. -/
def endPayloadLength (s : WirePacker) : Nat :=
  let index1 := (s.index_ + 1) % 256
  let index2 := (index1 + 1) % 256
  (index2 + 256 - 4) % 256

/-- Iterated single-byte writes, following the words "writes bytes one at a
time in order": the state after `write(d[0])`, ..., `write(d[n-1])`, whatever
each call returns. -/
def writeSeq (s : WirePacker) (d : List Nat) : WirePacker :=
  d.foldl (fun st b => (st.write b).2) s

/-- One call of a public member function of the packer. -/
inductive Op where
  | write (data : Nat)
  | writeBytes (data : List Nat)
  | read
  | available
  | packetLength
  | reset
  | end_
deriving DecidableEq, Repr

/-- The state after one call; `available()` and `packetLength()` assign no
member. -/
def step (crc8 : WireCrc) (s : WirePacker) : Op → WirePacker
  | Op.write b => (s.write b).2
  | Op.writeBytes d => (s.writeBytes d).2
  | Op.read => s.read.2
  | Op.available => s
  | Op.packetLength => s
  | Op.reset => s.reset
  | Op.end_ => end_ crc8 s

/-- The state after a sequence of calls, first call first. -/
def run (crc8 : WireCrc) (s : WirePacker) : List Op → WirePacker
  | [] => s
  | op :: ops => run crc8 (step crc8 s op) ops

/-- Whether every `end()` of the sequence is called on an open packer. -/
def endOnlyOpen (crc8 : WireCrc) (s : WirePacker) : List Op → Bool
  | [] => true
  | Op.end_ :: ops => s.isPacketOpen_ && endOnlyOpen crc8 (end_ crc8 s) ops
  | op :: ops => endOnlyOpen crc8 (step crc8 s op) ops

/-- Well-formed packer states: the buffer has its 128 bytes and starts with the
start byte; an open packer has write position and accumulated length equal and
between 2 and 126; a closed packer has its cursor within the total length,
which is between 4 and 128, is stored at offset 1 and ends at an end byte. -/
def WellFormed (s : WirePacker) : Prop :=
  s.buffer_.length = PACKER_BUFFER_LENGTH ∧ s.buffer_[0]? = some frameStart_ ∧
  (s.isPacketOpen_ = true →
    s.index_ = s.totalLength_ ∧ 2 ≤ s.totalLength_ ∧
    s.totalLength_ ≤ PACKER_BUFFER_LENGTH - 2) ∧
  (s.isPacketOpen_ = false →
    s.index_ ≤ s.totalLength_ ∧ 4 ≤ s.totalLength_ ∧
    s.totalLength_ ≤ PACKER_BUFFER_LENGTH ∧
    s.buffer_[1]? = some s.totalLength_ ∧
    s.buffer_[s.totalLength_ - 1]? = some frameEnd_)

end WirePacker

open WirePacker

theorem openHolding_decomp {s : WirePacker} {p : List Nat} (h : OpenHolding s p) :
    ∃ x rest, s.buffer_ = frameStart_ :: x :: (p ++ rest) ∧ p.length + rest.length = 126 := by
  obtain ⟨-, -, -, hP, hlen, hhead, hpay⟩ := h
  simp only [PACKER_BUFFER_LENGTH] at hP hlen
  rcases hb : s.buffer_ with _ | ⟨a, t⟩
  · rw [hb] at hlen; simp at hlen
  rcases t with _ | ⟨x, t⟩
  · rw [hb] at hlen; simp at hlen
  rw [hb] at hlen hhead hpay
  simp only [List.head?_cons, Option.some.injEq] at hhead
  simp only [List.drop_succ_cons, List.drop_zero] at hpay
  simp only [List.length_cons] at hlen
  refine ⟨x, t.drop p.length, ?_, ?_⟩
  · rw [hhead]
    congr 2
    conv_lhs => rw [← List.take_append_drop p.length t, hpay]
  · simp only [List.length_drop]; omega

theorem openHolding_of_decomp {s : WirePacker} {p : List Nat} {x : Nat} {rest : List Nat}
    (ho : s.isPacketOpen_ = true) (hi : s.index_ = 2 + p.length)
    (ht : s.totalLength_ = 2 + p.length) (hP : p.length ≤ 124)
    (hb : s.buffer_ = frameStart_ :: x :: (p ++ rest)) (hl : p.length + rest.length = 126) :
    OpenHolding s p := by
  refine ⟨ho, hi, ht, by simpa [PACKER_BUFFER_LENGTH] using hP, ?_, ?_, ?_⟩
  · rw [hb]; simp [PACKER_BUFFER_LENGTH]; omega
  · rw [hb]; simp
  · rw [hb]; simp

theorem reset_holding (s : WirePacker) (hlen : s.buffer_.length = PACKER_BUFFER_LENGTH) :
    OpenHolding s.reset [] := by
  refine ⟨rfl, rfl, rfl, by simp [PACKER_BUFFER_LENGTH], ?_, ?_, ?_⟩
  · simpa [reset] using hlen
  · rcases hb : s.buffer_ with _ | ⟨a, t⟩
    · rw [hb] at hlen; simp [PACKER_BUFFER_LENGTH] at hlen
    · simp [reset, hb]
  · simp

theorem write_holding {s : WirePacker} {p : List Nat} (h : OpenHolding s p)
    (hP : p.length < 124) (b : Nat) :
    (s.write b).1 = 1 ∧ OpenHolding (s.write b).2 (p ++ [b % 256]) := by
  obtain ⟨x, rest, hb, hl⟩ := openHolding_decomp h
  obtain ⟨ho, hi, ht, -, -, -, -⟩ := h
  rcases rest with _ | ⟨r, rest⟩
  · simp at hl; omega
  have hw : s.write b = (1, { s with buffer_ := s.buffer_.set s.index_ (b % 256)
                                     index_ := (s.index_ + 1) % 256
                                     totalLength_ := (s.index_ + 1) % 256 }) := by
    unfold write
    simp only [ho, ht, PACKER_BUFFER_LENGTH]
    rw [if_neg (by simp), if_neg (by omega)]
  rw [hw]
  refine ⟨rfl, ?_⟩
  have hidx : (s.index_ + 1) % 256 = 2 + (p ++ [b % 256]).length := by
    rw [hi]; simp only [List.length_append, List.length_singleton]; omega
  refine @openHolding_of_decomp _ _ x rest ho hidx hidx ?_ ?_ ?_
  · simp; omega
  · show s.buffer_.set s.index_ (b % 256) = _
    rw [hb, hi, show 2 + p.length = p.length + 1 + 1 by omega]
    simp
  · simp at hl ⊢; omega

theorem write_full {s : WirePacker} {p : List Nat} (h : OpenHolding s p)
    (hP : p.length = 124) (b : Nat) : s.write b = (0, s) := by
  obtain ⟨ho, hi, ht, -, -, -, -⟩ := h
  unfold write
  simp only [ho, ht, PACKER_BUFFER_LENGTH]
  rw [if_neg (by simp), if_pos (by omega)]

theorem set_past_payload (a x v : Nat) (p rest : List Nat) (k : Nat) :
    (a :: x :: (p ++ rest)).set (2 + p.length + k) v = a :: x :: (p ++ rest.set k v) := by
  rw [show 2 + p.length + k = (p.length + k) + 1 + 1 by omega]
  simp

theorem writeLoop_holding (data : List Nat) :
    ∀ (s : WirePacker) (p : List Nat) (i : Nat), OpenHolding s p →
      (s.writeLoop data i).1 = i + min data.length (124 - p.length) ∧
      OpenHolding (s.writeLoop data i).2
        (p ++ (data.take (124 - p.length)).map (fun b => b % 256)) := by
  induction data with
  | nil => intro s p i h; simpa [writeLoop] using h
  | cons d ds ih =>
    intro s p i h
    have hP : p.length ≤ 124 := by simpa [PACKER_BUFFER_LENGTH] using h.2.2.2.1
    rcases Nat.lt_or_ge p.length 124 with hlt | hge
    · obtain ⟨h1, h2⟩ := write_holding h hlt d
      have hstep : s.writeLoop (d :: ds) i = (s.write d).2.writeLoop ds (i + 1) := by
        simp [writeLoop, h1]
      obtain ⟨ih1, ih2⟩ := ih (s.write d).2 (p ++ [d % 256]) (i + 1) h2
      rw [hstep]
      have hk : 124 - p.length = (124 - (p ++ [d % 256]).length) + 1 := by
        simp only [List.length_append, List.length_singleton]; omega
      refine ⟨?_, ?_⟩
      · rw [ih1]
        simp only [List.length_append, List.length_singleton, List.length_cons, List.length_nil]
        clear hk
        omega
      · rw [hk]
        simpa using ih2
    · have hfull : p.length = 124 := by omega
      have hw := write_full h hfull d
      have hstep : s.writeLoop (d :: ds) i = (i, s) := by
        simp [writeLoop, hw]
      rw [hstep, hfull]
      simpa using h

theorem end_closed (crc8 : WireCrc) {s : WirePacker} {p : List Nat} (h : OpenHolding s p) :
    ClosedFrame (end_ crc8 s) (frameOf crc8 p) 0 := by
  obtain ⟨x, rest, hb, hl⟩ := openHolding_decomp h
  obtain ⟨ho, hi, ht, hP, hlen, -, -⟩ := h
  simp only [PACKER_BUFFER_LENGTH] at hP hlen
  rcases rest with _ | ⟨c0, rest⟩
  · simp at hl; omega
  rcases rest with _ | ⟨c1, rest⟩
  · simp at hl; omega
  have hi1 : (s.index_ + 1) % 256 = 2 + p.length + 1 := by omega
  have hi2 : (2 + p.length + 1 + 1) % 256 = p.length + 4 := by omega
  have hpl : (p.length + 4 + 256 - 4) % 256 = p.length := by omega
  have hbuf : (end_ crc8 s).buffer_ =
      frameStart_ :: (p.length + 4) ::
        (p ++ crcOf crc8 (p.length + 4) p :: frameEnd_ :: rest) := by
    unfold end_
    simp only [hi1, hi2, hpl, hb]
    rw [set_past_payload]
    simp only [List.set_cons_succ, List.set_cons_zero, List.drop_succ_cons, List.drop_zero,
      List.take_left]
    rw [if_pos (by omega), show p.length + 4 - 2 = 2 + p.length + 0 by omega, set_past_payload]
    simp [crcOf]
  have hfl : (frameOf crc8 p).length = p.length + 4 := by simp [frameOf]
  refine ⟨rfl, rfl, Nat.zero_le _, ?_, ?_, ?_, ?_⟩
  · show (((s.index_ + 1) % 256) + 1) % 256 = _
    rw [hi1, hi2, hfl]
  · rw [hfl]; simp [PACKER_BUFFER_LENGTH]; omega
  · rw [hbuf]; simp [PACKER_BUFFER_LENGTH] at hl ⊢; omega
  · rw [hbuf, hfl]
    have : frameStart_ :: (p.length + 4) ::
        (p ++ crcOf crc8 (p.length + 4) p :: frameEnd_ :: rest) = frameOf crc8 p ++ rest := by
      simp [frameOf]
    rw [this, ← hfl, List.take_left]

theorem closedFrame_getD {s : WirePacker} {frame : List Nat} {c : Nat}
    (h : ClosedFrame s frame c) {k : Nat} (hk : k < frame.length) :
    s.buffer_.getD k 0 = frame.getD k 0 := by
  obtain ⟨-, -, -, -, -, -, htake⟩ := h
  simp only [List.getD_eq_getElem?_getD]
  conv_rhs => rw [← htake, List.getElem?_take_of_lt hk]

theorem read_closed_lt {s : WirePacker} {frame : List Nat} {c : Nat}
    (h : ClosedFrame s frame c) (hc : c < frame.length) :
    s.read = (((frame.getD c 0 : Nat) : Int), { s with index_ := c + 1 }) ∧
      ClosedFrame { s with index_ := c + 1 } frame (c + 1) := by
  have hget := closedFrame_getD h hc
  obtain ⟨ho, hi, hle, ht, hcap, hlen, htake⟩ := h
  simp only [PACKER_BUFFER_LENGTH] at hcap
  refine ⟨?_, ho, rfl, hc, ht, by simpa [PACKER_BUFFER_LENGTH] using hcap, hlen, htake⟩
  unfold WirePacker.read
  have hmod : (s.index_ + 1) % 256 = c + 1 := by omega
  rw [if_pos (by simp [ho, hi, ht, hc]), hmod, hi, hget]

theorem read_closed_end {s : WirePacker} {frame : List Nat}
    (h : ClosedFrame s frame frame.length) : s.read = (-1, s) := by
  obtain ⟨ho, hi, hle, ht, hcap, hlen, htake⟩ := h
  unfold WirePacker.read
  rw [if_neg (by simp [ho, hi, ht])]

theorem available_closed {s : WirePacker} {frame : List Nat} {c : Nat}
    (h : ClosedFrame s frame c) : s.available = frame.length - c := by
  obtain ⟨ho, hi, hle, ht, hcap, hlen, htake⟩ := h
  simp only [PACKER_BUFFER_LENGTH] at hcap
  unfold available
  simp only [ho, hi, ht, Bool.false_eq_true, if_false]
  have h1 : ((frame.length : Int) - (c : Int)) = ((frame.length - c : Nat) : Int) := by omega
  rw [h1, Int.emod_eq_of_lt (by omega) (by omega)]
  simp

theorem readAll_closed {frame : List Nat} (n : Nat) :
    ∀ (s : WirePacker) (c fuel : Nat), ClosedFrame s frame c → frame.length - c = n →
      n < fuel →
      s.readAll fuel = some ((frame.drop c).map Int.ofNat, { s with index_ := frame.length }) := by
  induction n with
  | zero =>
    intro s c fuel h hn hf
    have hc : c = frame.length := by have := h.2.2.1; omega
    subst hc
    obtain ⟨fuel, rfl⟩ : ∃ f, fuel = f + 1 := ⟨fuel - 1, by omega⟩
    have hs : ({ s with index_ := frame.length } : WirePacker) = s := by
      have := h.2.1; cases s; simp_all
    simp [readAll, read_closed_end h, hs]
  | succ n ih =>
    intro s c fuel h hn hf
    have hc : c < frame.length := by omega
    obtain ⟨fuel, rfl⟩ : ∃ f, fuel = f + 1 := ⟨fuel - 1, by omega⟩
    obtain ⟨hr, hnext⟩ := read_closed_lt h hc
    have ih1 := ih _ (c + 1) fuel hnext (by omega) (by omega)
    have hne : ((frame.getD c 0 : Nat) : Int) ≠ -1 := by omega
    have hdrop : frame.drop c = frame.getD c 0 :: frame.drop (c + 1) := by
      rw [List.drop_eq_getElem_cons hc]
      simp [List.getD_eq_getElem?_getD, List.getElem?_eq_getElem hc]
    simp only [readAll, hr, if_neg hne, ih1, hdrop]
    simp

theorem readN_closed {frame : List Nat} (k : Nat) :
    ∀ (s : WirePacker) (c : Nat), ClosedFrame s frame c →
      ClosedFrame (readN k s) frame (min (c + k) frame.length) := by
  induction k with
  | zero =>
    intro s c h
    have := h.2.2.1
    simpa [readN, Nat.min_eq_left this] using h
  | succ k ih =>
    intro s c h
    rcases Nat.lt_or_ge c frame.length with hc | hc
    · obtain ⟨hr, hnext⟩ := read_closed_lt h hc
      have := ih _ (c + 1) hnext
      simp only [readN, hr]
      rwa [show c + (k + 1) = c + 1 + k by omega]
    · have hce : c = frame.length := by have := h.2.2.1; omega
      subst hce
      have := ih s frame.length h
      simp only [readN, read_closed_end h]
      simpa using this

theorem map_mod_of_bytes (l : List Nat) (h : ∀ b ∈ l, b < 256) :
    l.map (fun b => b % 256) = l := by
  induction l with
  | nil => rfl
  | cons a t ih =>
    have ha : a % 256 = a := Nat.mod_eq_of_lt (h a (List.mem_cons_self a t))
    have ht := ih (fun b hb => h b (List.mem_cons_of_mem a hb))
    simp [ha, ht]

theorem writeEach_holding (data : List Nat) :
    ∀ (s : WirePacker) (p : List Nat) (i : Nat), OpenHolding s p →
      p.length + data.length ≤ 124 →
      (s.writeEach data).1 = List.replicate data.length 1 ∧
      (s.writeEach data).2 = (s.writeLoop data i).2 := by
  induction data with
  | nil => intro s p i _ _; simp [writeEach, writeLoop]
  | cons d ds ih =>
    intro s p i h hfit
    simp only [List.length_cons] at hfit
    obtain ⟨h1, h2⟩ := write_holding h (by omega) d
    obtain ⟨ih1, ih2⟩ := ih (s.write d).2 (p ++ [d % 256]) (i + 1) h2 (by simp; omega)
    refine ⟨?_, ?_⟩
    · simp [writeEach, h1, ih1, List.replicate_succ]
    · simp [writeEach, writeLoop, h1, ih2]

theorem frameOf_layout (crc8 : WireCrc) (p : List Nat) :
    frameOf crc8 p = [0x02, p.length + 4] ++ p ++
      [(crc8.update (crc8.calc_ crc8.init [p.length + 4]).1 p).2 % 256, 0x04] := by
  simp [frameOf, crcOf, frameStart_, frameEnd_]

theorem drain_frame (crc8 : WireCrc) {s : WirePacker} {p : List Nat} (h : OpenHolding s p)
    (fuel : Nat) (hfuel : p.length + 4 < fuel) :
    (end_ crc8 s).readAll fuel =
      some ((frameOf crc8 p).map Int.ofNat,
        { end_ crc8 s with index_ := (frameOf crc8 p).length }) := by
  have hc := end_closed crc8 h
  have hfl : (frameOf crc8 p).length = p.length + 4 := by simp [frameOf]
  have := readAll_closed ((frameOf crc8 p).length - 0) (end_ crc8 s) 0 fuel hc rfl
    (by rw [hfl]; omega)
  simpa using this

/-- C1. Round trip: from a freshly constructed or reset packer (`reset` of any
state with its 128-byte buffer), writing a payload of `P ≤ 124` bytes (by
`write(bytes, P)` or by `P` calls of `write(byte)`), calling `end()` and then
calling `read()` until it returns -1 yields exactly
`0x02, P+4, payload, CRC, 0x04`, `P+4` bytes in all, where CRC is the byte
`update` returns for the payload after `calc` was given the single byte
`P+4`. -/
theorem roundtrip_frame (crc8 : WireCrc) (s0 : WirePacker) (payload : List Nat) (fuel : Nat)
    (hbuf : s0.buffer_.length = PACKER_BUFFER_LENGTH)
    (hbytes : ∀ b ∈ payload, b < 256)
    (hP : payload.length ≤ 124) (hfuel : payload.length + 4 < fuel) :
    (s0.reset.writeBytes payload).1 = payload.length ∧
    (s0.reset.writeEach payload).1 = List.replicate payload.length 1 ∧
    (s0.reset.writeEach payload).2 = (s0.reset.writeBytes payload).2 ∧
    ((end_ crc8 (s0.reset.writeBytes payload).2).readAll fuel).map Prod.fst =
      some (([0x02, payload.length + 4] ++ payload ++
        [(crc8.update (crc8.calc_ crc8.init [payload.length + 4]).1 payload).2 % 256,
          0x04]).map Int.ofNat) ∧
    ([0x02, payload.length + 4] ++ payload ++
        [(crc8.update (crc8.calc_ crc8.init [payload.length + 4]).1 payload).2 % 256,
          0x04]).length = payload.length + 4 := by
  have h0 := reset_holding s0 hbuf
  obtain ⟨hw1, hw2⟩ := writeLoop_holding payload s0.reset [] 0 h0
  obtain ⟨he1, he2⟩ := writeEach_holding payload s0.reset [] 0 h0 (by simpa using hP)
  have htake : payload.take 124 = payload := List.take_of_length_le hP
  simp only [List.length_nil, Nat.sub_zero, List.nil_append, htake,
    map_mod_of_bytes payload hbytes, Nat.zero_add] at hw1 hw2
  refine ⟨?_, he1, he2, ?_, by simp⟩
  · show (s0.reset.writeLoop payload 0).1 = _
    rw [hw1]; exact Nat.min_eq_left hP
  · show Option.map Prod.fst ((end_ crc8 (s0.reset.writeLoop payload 0).2).readAll fuel) = _
    rw [drain_frame crc8 hw2 fuel hfuel, frameOf_layout]
    rfl

/-- C1, at a concrete input: the payload `[0x41, 0x42]` gives the frame
`02 06 41 42 <checksum of 06 41 42> 04`. -/
theorem roundtrip_frame_witness :
    ((end_ sumCrc (zeroState.reset.writeBytes [0x41, 0x42]).2).readAll 7).map Prod.fst =
      some ([0x02, 0x06, 0x41, 0x42, (sumCrc.update (sumCrc.calc_ sumCrc.init [0x06]).1
        [0x41, 0x42]).2 % 256, 0x04].map Int.ofNat) :=
  (roundtrip_frame sumCrc zeroState [0x41, 0x42] 7 (by simp [zeroState, PACKER_BUFFER_LENGTH])
    (by decide) (by decide) (by decide)).2.2.2.1

/-- C2. Capacity boundary: on a freshly reset packer, writing exactly
`capacity - 4 = 124` payload bytes succeeds fully (each `write(byte)` returns
1, `write(bytes, 124)` returns 124, both leave the same state, which holds the
124 bytes from offset 2 on); the next `write(byte)` returns 0 and leaves the
whole state, hence buffer, write position and accumulated length, unchanged. -/
theorem capacity_boundary (s0 : WirePacker) (data : List Nat) (b : Nat)
    (hbuf : s0.buffer_.length = PACKER_BUFFER_LENGTH)
    (hbytes : ∀ x ∈ data, x < 256)
    (hlen : data.length = PACKER_BUFFER_LENGTH - 4) :
    (s0.reset.writeEach data).1 = List.replicate 124 1 ∧
    (s0.reset.writeBytes data).1 = 124 ∧
    (s0.reset.writeEach data).2 = (s0.reset.writeBytes data).2 ∧
    ((s0.reset.writeBytes data).2.buffer_.drop 2).take 124 = data ∧
    (s0.reset.writeBytes data).2.write b = (0, (s0.reset.writeBytes data).2) := by
  simp only [PACKER_BUFFER_LENGTH] at hlen
  have hlen' : data.length = 124 := by omega
  have h0 := reset_holding s0 hbuf
  obtain ⟨hw1, hw2⟩ := writeLoop_holding data s0.reset [] 0 h0
  obtain ⟨he1, he2⟩ := writeEach_holding data s0.reset [] 0 h0 (by simp; omega)
  have htake : data.take 124 = data := List.take_of_length_le (by omega)
  simp only [List.length_nil, Nat.sub_zero, List.nil_append, htake,
    map_mod_of_bytes data hbytes, Nat.zero_add] at hw1 hw2
  refine ⟨by rw [he1, hlen'], ?_, he2, ?_, ?_⟩
  · show (s0.reset.writeLoop data 0).1 = _
    rw [hw1, hlen']; rfl
  · show ((s0.reset.writeLoop data 0).2.buffer_.drop 2).take 124 = data
    have := hw2.2.2.2.2.2.2
    rwa [hlen'] at this
  · exact write_full hw2 hlen' b

/-- C2, at a concrete input: 124 bytes `7` written to the reset zero buffer,
then one more byte `9`. -/
theorem capacity_boundary_witness :
    (zeroState.reset.writeBytes (List.replicate 124 7)).1 = 124 ∧
    (zeroState.reset.writeBytes (List.replicate 124 7)).2.write 9 =
      (0, (zeroState.reset.writeBytes (List.replicate 124 7)).2) :=
  have h := capacity_boundary zeroState (List.replicate 124 7) 9
    (by simp [zeroState, PACKER_BUFFER_LENGTH])
    (by intro x hx; rw [List.eq_of_mem_replicate hx]; decide)
    (by simp [PACKER_BUFFER_LENGTH])
  ⟨h.2.1, h.2.2.2.2⟩

/-- C3. Partial write: for an open packer that already holds the `P ≤ 124`
payload bytes `old` and any byte sequence `data` of length `Q`,
`write(data, Q)` returns `min Q (124 - P)`, which is at most `Q`; the packer
then holds `old` followed by the first `min Q (124 - P)` bytes of `data`, in
order; and after `end()` the drained frame is
`0x02, length, old ++ accepted, CRC, 0x04`. -/
theorem short_write (crc8 : WireCrc) (s : WirePacker) (old data : List Nat) (fuel : Nat)
    (h : OpenHolding s old) (hbytes : ∀ x ∈ data, x < 256)
    (hfuel : old.length + min data.length (124 - old.length) + 4 < fuel) :
    (s.writeBytes data).1 = min data.length (124 - old.length) ∧
    (s.writeBytes data).1 ≤ data.length ∧
    OpenHolding (s.writeBytes data).2 (old ++ data.take (s.writeBytes data).1) ∧
    ((end_ crc8 (s.writeBytes data).2).readAll fuel).map Prod.fst =
      some (([0x02, (old ++ data.take (s.writeBytes data).1).length + 4] ++
        (old ++ data.take (s.writeBytes data).1) ++
        [(crc8.update (crc8.calc_ crc8.init
            [(old ++ data.take (s.writeBytes data).1).length + 4]).1
            (old ++ data.take (s.writeBytes data).1)).2 % 256, 0x04]).map Int.ofNat) := by
  obtain ⟨hw1, hw2⟩ := writeLoop_holding data s old 0 h
  have hret : (s.writeBytes data).1 = min data.length (124 - old.length) := by
    show (s.writeLoop data 0).1 = _
    rw [hw1, Nat.zero_add]
  have hacc : (data.take (124 - old.length)).map (fun b => b % 256) =
      data.take (s.writeBytes data).1 := by
    rw [map_mod_of_bytes _ (fun x hx => hbytes x (List.mem_of_mem_take hx)), hret,
      Nat.min_comm, List.take_eq_take]
    simp
  rw [hacc] at hw2
  have hlenacc : (old ++ data.take (s.writeBytes data).1).length + 4 < fuel := by
    rw [List.length_append, List.length_take, hret]
    have : min (min data.length (124 - old.length)) data.length =
        min data.length (124 - old.length) := by omega
    omega
  refine ⟨hret, by rw [hret]; exact Nat.min_le_left _ _, hw2, ?_⟩
  show Option.map Prod.fst ((end_ crc8 (s.writeLoop data 0).2).readAll fuel) = _
  have hw2' : OpenHolding (s.writeLoop data 0).2 (old ++ data.take (s.writeBytes data).1) := hw2
  rw [drain_frame crc8 hw2' fuel hlenacc, frameOf_layout]
  rfl

/-- C3, at a concrete input: a packer holding 123 bytes accepts only the first
of three further bytes. -/
theorem short_write_witness :
    ((zeroState.reset.writeBytes (List.replicate 123 1)).2.writeBytes [5, 6, 7]).1 = 1 :=
  have hopen : OpenHolding (zeroState.reset.writeBytes (List.replicate 123 1)).2
      (List.replicate 123 1) := by
    have h := (writeLoop_holding (List.replicate 123 1) zeroState.reset [] 0
      (reset_holding zeroState (by simp [zeroState, PACKER_BUFFER_LENGTH]))).2
    simpa [writeBytes] using h
  have h := short_write sumCrc (zeroState.reset.writeBytes (List.replicate 123 1)).2
    (List.replicate 123 1) [5, 6, 7] 200 hopen (by decide) (by simp)
  by
    have h1 := h.1
    simp only [List.length_replicate, List.length_cons, List.length_nil] at h1
    exact h1

/-- C4. State gating: in a closed state `write(byte)` and `write(bytes, Q)`
return 0 and leave the whole state (buffer, cursor, total length, flag) as it
is; in an open state `read()` returns -1, which is no value in 0..255,
and `available()` returns 0, and the state after `read()` is the state before
(`available()` assigns no member). -/
theorem state_gating (sc so : WirePacker) (b : Nat) (data : List Nat)
    (hc : sc.isPacketOpen_ = false) (ho : so.isPacketOpen_ = true) :
    sc.write b = (0, sc) ∧ sc.writeBytes data = (0, sc) ∧
    so.read = (-1, so) ∧ ¬ (0 ≤ so.read.1 ∧ so.read.1 ≤ 255) ∧ so.available = 0 := by
  have hw : sc.write b = (0, sc) := by simp [write, hc]
  have hr : so.read = (-1, so) := by simp [WirePacker.read, ho]
  refine ⟨hw, ?_, hr, ?_, ?_⟩
  · cases data with
    | nil => rfl
    | cons d ds =>
      have hd : sc.write d = (0, sc) := by simp [write, hc]
      simp [writeBytes, writeLoop, hd]
  · rw [hr]; omega
  · simp [available, ho]

/-- C4, at a concrete input: the closed zero state and its reset. -/
theorem state_gating_witness :
    zeroState.write 7 = (0, zeroState) ∧ zeroState.writeBytes [7, 8] = (0, zeroState) ∧
    zeroState.reset.read = (-1, zeroState.reset) ∧ zeroState.reset.available = 0 :=
  have h := state_gating zeroState zeroState.reset 7 [7, 8] rfl rfl
  ⟨h.1, h.2.1, h.2.2.1, h.2.2.2.2⟩

theorem frameOf_bytes (crc8 : WireCrc) (p : List Nat) (hP : p.length ≤ 124)
    (hbytes : ∀ b ∈ p, b < 256) : ∀ b ∈ frameOf crc8 p, b < 256 := by
  intro b hb
  simp only [frameOf, crcOf, frameStart_, frameEnd_, List.mem_cons, List.mem_append,
    List.mem_singleton, List.not_mem_nil, or_false] at hb
  rcases hb with rfl | rfl | hb | rfl | rfl
  · omega
  · omega
  · exact hbytes b hb
  · exact Nat.mod_lt _ (by omega)
  · omega

theorem getD_lt_of_bytes (l : List Nat) (h : ∀ b ∈ l, b < 256) (k : Nat) :
    l.getD k 0 < 256 := by
  rw [List.getD_eq_getElem?_getD]
  rcases hk : l[k]? with _ | v
  · simp
  · simpa using h v (List.getElem?_mem hk)

/-- C5. Drain: for a frame closed by `end()` on an open packer holding `P`
payload bytes, `available()` is `P+4` right after `end()` and `P+4-k` after
`k` calls of `read()`; while `available() > 0`, `read()` returns a byte in
0..255 and makes `available()` exactly one smaller; once `available()` is 0,
`read()` returns -1 and leaves the state, hence `available()`, as it is.
`available()` is positive after `k` reads exactly when `k < P+4`, so exactly
`P+4` reads succeed. -/
theorem drain_available (crc8 : WireCrc) (so : WirePacker) (p : List Nat) (k : Nat)
    (h : OpenHolding so p) (hbytes : ∀ b ∈ p, b < 256) :
    (end_ crc8 so).available = p.length + 4 ∧
    (readN k (end_ crc8 so)).available = p.length + 4 - k ∧
    (0 < (readN k (end_ crc8 so)).available →
      0 ≤ (readN k (end_ crc8 so)).read.1 ∧ (readN k (end_ crc8 so)).read.1 ≤ 255 ∧
      (readN k (end_ crc8 so)).read.2.available + 1 = (readN k (end_ crc8 so)).available) ∧
    ((readN k (end_ crc8 so)).available = 0 →
      (readN k (end_ crc8 so)).read = (-1, readN k (end_ crc8 so))) ∧
    (0 < (readN k (end_ crc8 so)).available ↔ k < p.length + 4) := by
  have hP : p.length ≤ 124 := by simpa [PACKER_BUFFER_LENGTH] using h.2.2.2.1
  have hc := end_closed crc8 h
  have hfl : (frameOf crc8 p).length = p.length + 4 := by simp [frameOf]
  have hk := readN_closed k _ 0 hc
  rw [Nat.zero_add] at hk
  have ha0 := available_closed hc
  have hak := available_closed hk
  rw [hfl] at ha0 hak
  have hak' : (readN k (end_ crc8 so)).available = p.length + 4 - k := by omega
  refine ⟨by simpa using ha0, hak', ?_, ?_, by omega⟩
  · intro hpos
    have hlt : min k (frameOf crc8 p).length < (frameOf crc8 p).length := by omega
    obtain ⟨hr, hnext⟩ := read_closed_lt hk hlt
    have hv := getD_lt_of_bytes _ (frameOf_bytes crc8 p hP hbytes) (min k (frameOf crc8 p).length)
    have han := available_closed hnext
    rw [hr]
    refine ⟨by simp, by simp only; omega, ?_⟩
    simp only
    omega
  · intro hz
    have hkk : min k (frameOf crc8 p).length = (frameOf crc8 p).length := by omega
    rw [hkk] at hk
    exact read_closed_end hk

/-- C5, at a concrete input: the frame of the payload `[0x41, 0x42]` after
three reads. -/
theorem drain_available_witness :
    (end_ sumCrc (zeroState.reset.writeBytes [0x41, 0x42]).2).available = 6 ∧
    (readN 3 (end_ sumCrc (zeroState.reset.writeBytes [0x41, 0x42]).2)).available = 3 :=
  have hopen : OpenHolding (zeroState.reset.writeBytes [0x41, 0x42]).2 [0x41, 0x42] := by
    have h := (writeLoop_holding [0x41, 0x42] zeroState.reset [] 0
      (reset_holding zeroState (by simp [zeroState, PACKER_BUFFER_LENGTH]))).2
    simpa [writeBytes] using h
  have h := drain_available sumCrc (zeroState.reset.writeBytes [0x41, 0x42]).2 [0x41, 0x42] 3
    hopen (by decide)
  ⟨h.1, h.2.1⟩

/-- C6 as stated (`packetLength()` is `P + 2` while open, 2 after `reset()`)
fails: right after `reset()` the packer reports 4, and after one accepted
byte it reports 5. -/
theorem packetLength_open_counterexample :
    ¬ (zeroState.reset.packetLength = 0 + 2) ∧
    (zeroState.reset.writeBytes [0x41]).1 = 1 ∧
    ¬ ((zeroState.reset.writeBytes [0x41]).2.packetLength = 1 + 2) := by
  decide

/-- C6, amended. In the open state reached by `reset()` followed by the `P`
accepted payload writes of `write(data, Q)`, `packetLength()` returns
`P + 4`: the accumulated length `totalLength_ = P + 2`, plus 2.  Right after
`reset()` (and after construction) it reports 4 and the state is open. -/
theorem packetLength_open (s0 : WirePacker) (data : List Nat)
    (hbuf : s0.buffer_.length = PACKER_BUFFER_LENGTH) :
    (s0.reset.writeBytes data).2.isPacketOpen_ = true ∧
    (s0.reset.writeBytes data).2.totalLength_ = (s0.reset.writeBytes data).1 + 2 ∧
    (s0.reset.writeBytes data).2.packetLength = (s0.reset.writeBytes data).1 + 4 ∧
    s0.reset.packetLength = 4 ∧ s0.reset.isPacketOpen_ = true := by
  obtain ⟨hw1, hw2⟩ := writeLoop_holding data s0.reset [] 0 (reset_holding s0 hbuf)
  have hret : (s0.reset.writeBytes data).1 = min data.length 124 := by
    show (s0.reset.writeLoop data 0).1 = _
    rw [hw1]; simp
  have hw2' : OpenHolding (s0.reset.writeBytes data).2
      ([] ++ (data.take (124 - ([] : List Nat).length)).map (fun b => b % 256)) := hw2
  obtain ⟨ho, -, ht, -⟩ := hw2'
  have hlen : ([] ++ (data.take (124 - ([] : List Nat).length)).map
      (fun b => b % 256)).length = min data.length 124 := by
    simp [Nat.min_comm]
  rw [hlen] at ht
  refine ⟨ho, by omega, ?_, rfl, rfl⟩
  simp only [packetLength, ho, if_true]
  omega

/-- C6 amended, at a concrete input: two bytes written to the reset zero
buffer give `packetLength() = 6`. -/
theorem packetLength_open_witness :
    (zeroState.reset.writeBytes [0x41, 0x42]).2.packetLength =
      (zeroState.reset.writeBytes [0x41, 0x42]).1 + 4 ∧ zeroState.reset.packetLength = 4 :=
  have h := packetLength_open zeroState [0x41, 0x42] (by simp [zeroState, PACKER_BUFFER_LENGTH])
  ⟨h.2.2.1, h.2.2.2.1⟩

/-- C7, the code at the failing input `reset(); write(0x41); write(0x42);
end(); read(); read(); end()`: before the second `end()` the packer is closed
with total length 6, cursor 2 and frame `02 06 41 42 89 04`; the second
`end()` sets the total length to 4, the cursor to 0 and overwrites the bytes
at offsets 1, 2 and 3. -/
theorem end_twice_changes_frame :
    (readN 2 (end_ sumCrc (zeroState.reset.writeBytes [0x41, 0x42]).2)).isPacketOpen_ = false ∧
    (readN 2 (end_ sumCrc (zeroState.reset.writeBytes [0x41, 0x42]).2)).totalLength_ = 6 ∧
    (readN 2 (end_ sumCrc (zeroState.reset.writeBytes [0x41, 0x42]).2)).index_ = 2 ∧
    (readN 2 (end_ sumCrc (zeroState.reset.writeBytes [0x41, 0x42]).2)).buffer_.take 6 =
      [0x02, 0x06, 0x41, 0x42, 0x89, 0x04] ∧
    (end_ sumCrc (readN 2 (end_ sumCrc
      (zeroState.reset.writeBytes [0x41, 0x42]).2))).totalLength_ = 4 ∧
    (end_ sumCrc (readN 2 (end_ sumCrc
      (zeroState.reset.writeBytes [0x41, 0x42]).2))).index_ = 0 ∧
    (end_ sumCrc (readN 2 (end_ sumCrc
      (zeroState.reset.writeBytes [0x41, 0x42]).2))).buffer_.take 6 =
      [0x02, 0x04, 0x04, 0x04, 0x89, 0x04] ∧
    end_ sumCrc (readN 2 (end_ sumCrc (zeroState.reset.writeBytes [0x41, 0x42]).2)) ≠
      readN 2 (end_ sumCrc (zeroState.reset.writeBytes [0x41, 0x42]).2) := by
  decide

/-- C8. Reset reuse is independent of history: for any two packer states `s1`
and `s2` (open or closed, any buffer contents and cursors, each with its
128-byte buffer) and any payload of `P ≤ 124` bytes, `reset()`, writing the
payload, `end()` and draining with `read()` give the same byte sequence from
`s1` as from `s2`, namely the frame of the payload alone, so no byte of an
earlier frame is returned; `packetLength()` and `available()` after `end()`
agree as well, both being `P + 4`. -/
theorem reset_reuse_independent (crc8 : WireCrc) (s1 s2 : WirePacker) (payload : List Nat)
    (fuel : Nat)
    (hbuf1 : s1.buffer_.length = PACKER_BUFFER_LENGTH)
    (hbuf2 : s2.buffer_.length = PACKER_BUFFER_LENGTH)
    (hbytes : ∀ b ∈ payload, b < 256)
    (hP : payload.length ≤ 124) (hfuel : payload.length + 4 < fuel) :
    ((end_ crc8 (s1.reset.writeBytes payload).2).readAll fuel).map Prod.fst =
      ((end_ crc8 (s2.reset.writeBytes payload).2).readAll fuel).map Prod.fst ∧
    ((end_ crc8 (s1.reset.writeBytes payload).2).readAll fuel).map Prod.fst =
      some (([0x02, payload.length + 4] ++ payload ++
        [(crc8.update (crc8.calc_ crc8.init [payload.length + 4]).1 payload).2 % 256,
          0x04]).map Int.ofNat) ∧
    (end_ crc8 (s1.reset.writeBytes payload).2).packetLength =
      (end_ crc8 (s2.reset.writeBytes payload).2).packetLength ∧
    (end_ crc8 (s1.reset.writeBytes payload).2).available =
      (end_ crc8 (s2.reset.writeBytes payload).2).available ∧
    (end_ crc8 (s1.reset.writeBytes payload).2).packetLength = payload.length + 4 ∧
    (end_ crc8 (s1.reset.writeBytes payload).2).available = payload.length + 4 := by
  have key : ∀ s0 : WirePacker, s0.buffer_.length = PACKER_BUFFER_LENGTH →
      ((end_ crc8 (s0.reset.writeBytes payload).2).readAll fuel).map Prod.fst =
        some ((frameOf crc8 payload).map Int.ofNat) ∧
      (end_ crc8 (s0.reset.writeBytes payload).2).packetLength = payload.length + 4 ∧
      (end_ crc8 (s0.reset.writeBytes payload).2).available = payload.length + 4 := by
    intro s0 hbuf
    obtain ⟨-, hw2⟩ := writeLoop_holding payload s0.reset [] 0 (reset_holding s0 hbuf)
    have htake : payload.take 124 = payload := List.take_of_length_le hP
    simp only [List.length_nil, Nat.sub_zero, List.nil_append, htake,
      map_mod_of_bytes payload hbytes] at hw2
    have hw2' : OpenHolding (s0.reset.writeBytes payload).2 payload := hw2
    have hc := end_closed crc8 hw2'
    have hfl : (frameOf crc8 payload).length = payload.length + 4 := by simp [frameOf]
    refine ⟨?_, ?_, ?_⟩
    · rw [drain_frame crc8 hw2' fuel hfuel]; rfl
    · have ht := hc.2.2.2.1
      simp only [packetLength, hc.1, Bool.false_eq_true, if_false, ht, hfl]
    · rw [available_closed hc, hfl]; rfl
  obtain ⟨a1, b1, c1⟩ := key s1 hbuf1
  obtain ⟨a2, b2, c2⟩ := key s2 hbuf2
  refine ⟨by rw [a1, a2], ?_, by rw [b1, b2], by rw [c1, c2], b1, c1⟩
  rw [a1, frameOf_layout]

/-- C8, at a concrete input: the zero state and a state full of stale bytes
give the same drained frame for the payload `[0x41, 0x42]`. -/
theorem reset_reuse_independent_witness :
    ((end_ sumCrc (zeroState.reset.writeBytes [0x41, 0x42]).2).readAll 7).map Prod.fst =
      ((end_ sumCrc (staleState.reset.writeBytes [0x41, 0x42]).2).readAll 7).map Prod.fst :=
  (reset_reuse_independent sumCrc zeroState staleState [0x41, 0x42] 7
    (by simp [zeroState, PACKER_BUFFER_LENGTH]) (by simp [staleState, PACKER_BUFFER_LENGTH])
    (by decide) (by decide) (by decide)).1

/-- C9. Final length while closed: for the frame closed by one `end()` on an
open packer holding `P ≤ 124` payload bytes, `packetLength()` returns `P + 4`;
this is the length byte at offset 1 of the buffer, which is the value the
second `read()` returns, and it is the number of bytes the drain produces. -/
theorem closed_length (crc8 : WireCrc) (so : WirePacker) (p : List Nat) (fuel : Nat)
    (h : OpenHolding so p) (hfuel : p.length + 4 < fuel) :
    (end_ crc8 so).packetLength = p.length + 4 ∧
    (end_ crc8 so).buffer_[1]? = some ((end_ crc8 so).packetLength) ∧
    (readN 1 (end_ crc8 so)).read.1 = ((end_ crc8 so).packetLength : Int) ∧
    ((end_ crc8 so).readAll fuel).map (fun r => r.1.length) =
      some ((end_ crc8 so).packetLength) := by
  have hc := end_closed crc8 h
  have hfl : (frameOf crc8 p).length = p.length + 4 := by simp [frameOf]
  have hpl : (end_ crc8 so).packetLength = p.length + 4 := by
    have ht := hc.2.2.2.1
    simp only [packetLength, hc.1, Bool.false_eq_true, if_false, ht, hfl]
  have hb1 : (end_ crc8 so).buffer_[1]? = some (p.length + 4) := by
    have htake := hc.2.2.2.2.2.2
    have h1 : ((end_ crc8 so).buffer_.take (frameOf crc8 p).length)[1]? =
        (end_ crc8 so).buffer_[1]? := List.getElem?_take_of_lt (by omega)
    rw [← h1, htake]
    simp [frameOf]
  have h1 := readN_closed 1 _ 0 hc
  have hmin : min (0 + 1) (frameOf crc8 p).length = 1 := by omega
  rw [hmin] at h1
  obtain ⟨hr, -⟩ := read_closed_lt h1 (by omega)
  refine ⟨hpl, by rw [hb1, hpl], ?_, ?_⟩
  · rw [hr, hpl]
    simp [frameOf]
  · rw [drain_frame crc8 h fuel hfuel, hpl]
    simp [hfl]

/-- C9, at a concrete input: the frame of the payload `[0x41, 0x42]` has
`packetLength() = 6`. -/
theorem closed_length_witness :
    (end_ sumCrc (zeroState.reset.writeBytes [0x41, 0x42]).2).packetLength = 6 :=
  have hopen : OpenHolding (zeroState.reset.writeBytes [0x41, 0x42]).2 [0x41, 0x42] := by
    have h := (writeLoop_holding [0x41, 0x42] zeroState.reset [] 0
      (reset_holding zeroState (by simp [zeroState, PACKER_BUFFER_LENGTH]))).2
    simpa [writeBytes] using h
  (closed_length sumCrc (zeroState.reset.writeBytes [0x41, 0x42]).2 [0x41, 0x42] 7
    hopen (by decide)).1

/-- C10. Single-byte write: for every state with its 128-byte buffer whose
write position lies inside the buffer while it is open, and every byte `b`,
`write(b)` returns 1 exactly when the state is open and the accumulated length
is below `capacity - 2 = 126`, and 0 otherwise.  When it returns 1, `b` is
stored at the write position, the write position advances by one, the
accumulated length becomes the new write position, and every other buffer byte
and the open flag are unchanged; when it returns 0 the whole state is
unchanged. -/
theorem write_byte_effect (s : WirePacker) (b : Nat) (hb : b < 256)
    (hlen : s.buffer_.length = PACKER_BUFFER_LENGTH)
    (hidx : s.isPacketOpen_ = true → s.index_ < PACKER_BUFFER_LENGTH) :
    ((s.write b).1 = 1 ↔
      (s.isPacketOpen_ = true ∧ s.totalLength_ < PACKER_BUFFER_LENGTH - 2)) ∧
    ((s.write b).1 ≠ 1 → (s.write b).1 = 0) ∧
    ((s.write b).1 = 1 →
      (s.write b).2.buffer_[s.index_]? = some b ∧
      (s.write b).2.index_ = s.index_ + 1 ∧
      (s.write b).2.totalLength_ = (s.write b).2.index_ ∧
      (∀ j, j ≠ s.index_ → (s.write b).2.buffer_[j]? = s.buffer_[j]?) ∧
      (s.write b).2.buffer_.length = s.buffer_.length ∧
      (s.write b).2.isPacketOpen_ = s.isPacketOpen_) ∧
    ((s.write b).1 = 0 → (s.write b).2 = s) := by
  simp only [PACKER_BUFFER_LENGTH] at hlen hidx ⊢
  by_cases ho : s.isPacketOpen_ = true
  · by_cases ht : s.totalLength_ < 126
    · have hi := hidx ho
      have hw : s.write b = (1, { s with buffer_ := s.buffer_.set s.index_ (b % 256)
                                         index_ := (s.index_ + 1) % 256
                                         totalLength_ := (s.index_ + 1) % 256 }) := by
        unfold write
        simp only [ho, PACKER_BUFFER_LENGTH]
        rw [if_neg (by simp), if_neg (by omega)]
      rw [hw]
      refine ⟨by simp [ho, ht], by simp, ?_, by simp⟩
      intro _
      refine ⟨?_, ?_, rfl, ?_, by simp, rfl⟩
      · simp only [List.getElem?_set, if_true, Nat.mod_eq_of_lt hb]
        rw [if_pos (by omega)]
      · show (s.index_ + 1) % 256 = s.index_ + 1
        omega
      · intro j hj
        simp only [List.getElem?_set]
        rw [if_neg (by omega)]
    · have hw : s.write b = (0, s) := by
        unfold write
        simp only [ho, PACKER_BUFFER_LENGTH]
        rw [if_neg (by simp), if_pos (by omega)]
      rw [hw]
      simp [ht]
  · have hw : s.write b = (0, s) := by
      unfold write
      rw [if_pos (by simpa using ho)]
    rw [hw]
    simp [ho]

/-- C10, at a concrete input: the byte 7 written to the reset zero buffer is
accepted and stored at offset 2. -/
theorem write_byte_effect_witness :
    (zeroState.reset.write 7).1 = 1 ∧ (zeroState.reset.write 7).2.buffer_[2]? = some 7 ∧
    (zeroState.reset.write 7).2.index_ = 3 :=
  have h := write_byte_effect zeroState.reset 7 (by decide)
    (by simp [zeroState, reset, PACKER_BUFFER_LENGTH]) (by intro _; decide)
  have h1 : (zeroState.reset.write 7).1 = 1 := h.1.2 ⟨rfl, by decide⟩
  ⟨h1, (h.2.2.1 h1).1, (h.2.2.1 h1).2.1⟩

/-- C11. Reset effect: from every state (open or closed, with its 128-byte
buffer), `reset()` yields a state with `buffer_[0] = 0x02`, write position 2,
accumulated length 2 and the open flag set, every buffer byte at offset 1 or
above being unchanged; right afterwards `available()` is 0 and `read()`
returns -1 without changing the state, so no byte of the previous frame is
readable. -/
theorem reset_effect (s : WirePacker) (hbuf : s.buffer_.length = PACKER_BUFFER_LENGTH) :
    s.reset.buffer_[0]? = some 0x02 ∧ s.reset.index_ = 2 ∧ s.reset.totalLength_ = 2 ∧
    s.reset.isPacketOpen_ = true ∧
    (∀ j, 1 ≤ j → s.reset.buffer_[j]? = s.buffer_[j]?) ∧
    s.reset.buffer_.length = s.buffer_.length ∧
    s.reset.available = 0 ∧ s.reset.read = (-1, s.reset) := by
  simp only [PACKER_BUFFER_LENGTH] at hbuf
  refine ⟨?_, rfl, rfl, rfl, ?_, ?_, ?_, ?_⟩
  · show (s.buffer_.set 0 frameStart_)[0]? = _
    simp only [List.getElem?_set, if_true]
    rw [if_pos (by omega)]; rfl
  · intro j hj
    show (s.buffer_.set 0 frameStart_)[j]? = _
    simp only [List.getElem?_set]
    rw [if_neg (by omega)]
  · simp [reset]
  · simp [available, reset]
  · simp [WirePacker.read, reset]

/-- C11, at a concrete input: reset of a closed state full of stale bytes. -/
theorem reset_effect_witness :
    staleState.reset.buffer_[0]? = some 0x02 ∧ staleState.reset.index_ = 2 ∧
    staleState.reset.available = 0 ∧ staleState.reset.read = (-1, staleState.reset) :=
  have h := reset_effect staleState (by simp [staleState, PACKER_BUFFER_LENGTH])
  ⟨h.1, h.2.1, h.2.2.2.2.2.2.1, h.2.2.2.2.2.2.2⟩

theorem read_closed_step (s : WirePacker) (hc : s.isPacketOpen_ = false)
    (ht : s.totalLength_ < 256) :
    s.read = if s.index_ < s.totalLength_ then
        (((s.buffer_.getD s.index_ 0 : Nat) : Int), { s with index_ := s.index_ + 1 })
      else (-1, s) := by
  unfold WirePacker.read
  by_cases hlt : s.index_ < s.totalLength_
  · have hmod : (s.index_ + 1) % 256 = s.index_ + 1 := by omega
    rw [if_pos (by simp [hc, hlt]), if_pos hlt, hmod]
  · rw [if_neg (by simp [hc, hlt]), if_neg hlt]

theorem readN_closed_cursor (k : Nat) :
    ∀ (s : WirePacker), s.isPacketOpen_ = false → s.totalLength_ < 256 →
      readN k s = { s with index_ := if s.index_ < s.totalLength_
                                     then min (s.index_ + k) s.totalLength_ else s.index_ } := by
  induction k with
  | zero =>
    intro s _ _
    have : (if s.index_ < s.totalLength_ then min (s.index_ + 0) s.totalLength_
        else s.index_) = s.index_ := by
      split <;> omega
    rw [this]; rfl
  | succ k ih =>
    intro s hc ht
    by_cases hlt : s.index_ < s.totalLength_
    · have hr : s.read.2 = { s with index_ := s.index_ + 1 } := by
        rw [read_closed_step s hc ht, if_pos hlt]
      have := ih { s with index_ := s.index_ + 1 } hc ht
      simp only [readN, hr, this, if_pos hlt]
      congr 1
      split <;> omega
    · have hr : s.read.2 = s := by
        rw [read_closed_step s hc ht, if_neg hlt]
      have := ih s hc ht
      simp only [readN, hr, this, if_neg hlt]

/-- C12. Read-only once closed, sequential cursor: in a closed state (total
length a `uint8_t`), `read()`, once or `k` times, leaves buffer, total length
and closed flag as they are; the cursor does not decrease and, when within the
total length before, stays within it; and from cursor 0, the state `end()`
leaves, the read that follows `k` earlier reads (`k` below the total length
and inside the buffer) succeeds and returns the buffer byte at offset `k`, so
no byte is skipped or returned twice. -/
theorem read_sequential (crc8 : WireCrc) (s0 s : WirePacker) (k : Nat)
    (hc : s.isPacketOpen_ = false) (ht : s.totalLength_ < 256) :
    (s.read.2.buffer_ = s.buffer_ ∧ s.read.2.totalLength_ = s.totalLength_ ∧
      s.read.2.isPacketOpen_ = false ∧ s.index_ ≤ s.read.2.index_ ∧
      (s.index_ ≤ s.totalLength_ → s.read.2.index_ ≤ s.totalLength_)) ∧
    ((readN k s).buffer_ = s.buffer_ ∧ (readN k s).totalLength_ = s.totalLength_ ∧
      (readN k s).isPacketOpen_ = false ∧ s.index_ ≤ (readN k s).index_ ∧
      (s.index_ ≤ s.totalLength_ → (readN k s).index_ ≤ s.totalLength_)) ∧
    (s.index_ = 0 → k < s.totalLength_ → k < s.buffer_.length →
      (readN k s).index_ = k ∧ (readN k s).read.1 ≠ -1 ∧
      ∃ v : Nat, s.buffer_[k]? = some v ∧ (readN k s).read.1 = (v : Int)) ∧
    ((end_ crc8 s0).isPacketOpen_ = false ∧ (end_ crc8 s0).index_ = 0 ∧
      (end_ crc8 s0).totalLength_ < 256) := by
  have h1 := readN_closed_cursor 1 s hc ht
  have hk := readN_closed_cursor k s hc ht
  have h1' : s.read.2 = readN 1 s := rfl
  refine ⟨?_, ?_, ?_, rfl, rfl, ?_⟩
  · rw [h1', h1]
    refine ⟨rfl, rfl, hc, ?_, ?_⟩
    · show s.index_ ≤ (if s.index_ < s.totalLength_ then min (s.index_ + 1) s.totalLength_
        else s.index_)
      split <;> omega
    · intro _
      show (if s.index_ < s.totalLength_ then min (s.index_ + 1) s.totalLength_
        else s.index_) ≤ s.totalLength_
      split <;> omega
  · rw [hk]
    refine ⟨rfl, rfl, hc, ?_, ?_⟩
    · show s.index_ ≤ (if s.index_ < s.totalLength_ then min (s.index_ + k) s.totalLength_
        else s.index_)
      split <;> omega
    · intro _
      show (if s.index_ < s.totalLength_ then min (s.index_ + k) s.totalLength_
        else s.index_) ≤ s.totalLength_
      split <;> omega
  · intro hi hkt hkb
    have hidx : (if s.index_ < s.totalLength_ then min (s.index_ + k) s.totalLength_
        else s.index_) = k := by
      rw [if_pos (by omega)]; omega
    rw [hk, hidx]
    have hr := read_closed_step { s with index_ := k } hc ht
    rw [if_pos (show k < s.totalLength_ from hkt)] at hr
    rw [hr]
    refine ⟨rfl, by simp only; omega, s.buffer_.getD k 0, ?_, rfl⟩
    rw [List.getD_eq_getElem?_getD, List.getElem?_eq_getElem hkb]
    rfl
  · show (((s0.index_ + 1) % 256) + 1) % 256 < 256
    omega

/-- C12, at a concrete input: the third read of the frame of `[0x41, 0x42]`
returns the byte at offset 2. -/
theorem read_sequential_witness :
    (readN 2 (end_ sumCrc (zeroState.reset.writeBytes [0x41, 0x42]).2)).index_ = 2 ∧
    (readN 2 (end_ sumCrc (zeroState.reset.writeBytes [0x41, 0x42]).2)).read.1 ≠ -1 :=
  have h := read_sequential sumCrc zeroState
    (end_ sumCrc (zeroState.reset.writeBytes [0x41, 0x42]).2) 2 rfl (by decide)
  have h3 := h.2.2.1 rfl (by decide) (by simp [end_, zeroState, reset, writeBytes, writeLoop,
    write, PACKER_BUFFER_LENGTH])
  ⟨h3.1, h3.2.1⟩

theorem end_open_sets (crc8 : WireCrc) {s : WirePacker} {p : List Nat} (h : OpenHolding s p) :
    end_ crc8 s =
      { buffer_ := ((s.buffer_.set (p.length + 3) frameEnd_).set 1 (p.length + 4)).set
          (p.length + 2) (crcOf crc8 (p.length + 4) p)
        index_ := 0
        totalLength_ := p.length + 4
        isPacketOpen_ := false } := by
  obtain ⟨x, rest, hb, hl⟩ := openHolding_decomp h
  obtain ⟨ho, hi, ht, hP, hlen, -, -⟩ := h
  simp only [PACKER_BUFFER_LENGTH] at hP hlen
  have hi1 : (s.index_ + 1) % 256 = p.length + 3 := by omega
  have hi2 : (p.length + 3 + 1) % 256 = p.length + 4 := by omega
  have hpl : (p.length + 4 + 256 - 4) % 256 = p.length := by omega
  have hslice : (((s.buffer_.set (p.length + 3) frameEnd_).set 1 (p.length + 4)).drop 2).take
      p.length = p := by
    rw [hb, show p.length + 3 = 2 + p.length + 1 by omega, set_past_payload]
    simp
  unfold end_
  simp only [hi1, hi2, hpl, hslice]
  rw [if_pos (by omega), show p.length + 4 - 2 = p.length + 2 by omega]
  rfl

/-- C13. Close fix-up touches only three offsets: for an open packer holding
`P ≤ 124` payload bytes (write position `2 + P`), `end()` sets the state to
closed, the total length to `P + 4` and the read cursor to 0, writes `P + 4`
at offset 1, the checksum at offset `2 + P` and `0x04` at offset `3 + P`, and
leaves every other buffer byte as it was: the start byte at offset 0, the
payload at offsets `2 .. 2+P-1` and every byte at an offset above `3 + P`. -/
theorem end_fixup (crc8 : WireCrc) (s : WirePacker) (p : List Nat) (h : OpenHolding s p) :
    (end_ crc8 s).isPacketOpen_ = false ∧ (end_ crc8 s).totalLength_ = p.length + 4 ∧
    (end_ crc8 s).index_ = 0 ∧
    (end_ crc8 s).buffer_[1]? = some (p.length + 4) ∧
    (end_ crc8 s).buffer_[2 + p.length]? =
      some ((crc8.update (crc8.calc_ crc8.init [p.length + 4]).1 p).2 % 256) ∧
    (end_ crc8 s).buffer_[3 + p.length]? = some 0x04 ∧
    (end_ crc8 s).buffer_[0]? = some 0x02 ∧
    ((end_ crc8 s).buffer_.drop 2).take p.length = p ∧
    (∀ j, j ≠ 1 → j ≠ 2 + p.length → j ≠ 3 + p.length →
      (end_ crc8 s).buffer_[j]? = s.buffer_[j]?) ∧
    (end_ crc8 s).buffer_.length = s.buffer_.length := by
  have hsets := end_open_sets crc8 h
  have hc := end_closed crc8 h
  obtain ⟨ho, hi, ht, hP, hlen, hhead, hpay⟩ := h
  simp only [PACKER_BUFFER_LENGTH] at hP hlen
  have hfl : (frameOf crc8 p).length = p.length + 4 := by simp [frameOf]
  have hframe : ∀ j, j < p.length + 4 →
      (end_ crc8 s).buffer_[j]? = (frameOf crc8 p)[j]? := by
    intro j hj
    have htake := hc.2.2.2.2.2.2
    conv_rhs => rw [← htake]
    rw [hfl, List.getElem?_take_of_lt hj]
  have hunch : ∀ j, j ≠ 1 → j ≠ 2 + p.length → j ≠ 3 + p.length →
      (end_ crc8 s).buffer_[j]? = s.buffer_[j]? := by
    intro j h1 h2 h3
    rw [hsets]
    simp only [List.getElem?_set]
    rw [if_neg (by omega), if_neg (by omega), if_neg (by omega)]
  refine ⟨by rw [hsets], by rw [hsets], by rw [hsets], ?_, ?_, ?_, ?_, ?_, hunch, ?_⟩
  · rw [hframe 1 (by omega)]; simp [frameOf]
  · rw [hframe _ (by omega)]
    simp only [frameOf, crcOf]
    rw [show 2 + p.length = p.length + 1 + 1 by omega]
    simp only [List.getElem?_cons_succ]
    rw [List.getElem?_append_right (by omega)]
    simp
  · rw [hframe _ (by omega)]
    simp only [frameOf, frameEnd_]
    rw [show 3 + p.length = (p.length + 1) + 1 + 1 by omega]
    simp only [List.getElem?_cons_succ]
    rw [List.getElem?_append_right (by omega)]
    simp
  · rw [hframe 0 (by omega)]; simp [frameOf, frameStart_]
  · have htake := hc.2.2.2.2.2.2
    have : (end_ crc8 s).buffer_.take (p.length + 2) = frameStart_ :: (p.length + 4) :: p := by
      have h2 : (end_ crc8 s).buffer_.take (p.length + 2) =
          ((end_ crc8 s).buffer_.take (frameOf crc8 p).length).take (p.length + 2) := by
        rw [List.take_take, hfl, Nat.min_eq_left (by omega)]
      rw [h2, htake]
      simp [frameOf]
    have h3 : ((end_ crc8 s).buffer_.drop 2).take p.length =
        ((end_ crc8 s).buffer_.take (p.length + 2)).drop 2 := by
      rw [List.drop_take]; simp
    rw [h3, this]; rfl
  · rw [hsets]; simp

/-- C13, at a concrete input: closing the packer holding `[0x41, 0x42]`. -/
theorem end_fixup_witness :
    (end_ sumCrc (zeroState.reset.writeBytes [0x41, 0x42]).2).totalLength_ = 6 ∧
    (end_ sumCrc (zeroState.reset.writeBytes [0x41, 0x42]).2).buffer_[1]? = some 6 ∧
    (end_ sumCrc (zeroState.reset.writeBytes [0x41, 0x42]).2).buffer_[5]? = some 0x04 :=
  have hopen : OpenHolding (zeroState.reset.writeBytes [0x41, 0x42]).2 [0x41, 0x42] := by
    have h := (writeLoop_holding [0x41, 0x42] zeroState.reset [] 0
      (reset_holding zeroState (by simp [zeroState, PACKER_BUFFER_LENGTH]))).2
    simpa [writeBytes] using h
  have h := end_fixup sumCrc (zeroState.reset.writeBytes [0x41, 0x42]).2 [0x41, 0x42] hopen
  ⟨h.2.1, h.2.2.2.1, h.2.2.2.2.2.1⟩

theorem write_result (s : WirePacker) (b : Nat) :
    ((s.write b).1 = 0 ∧ (s.write b).2 = s) ∨ (s.write b).1 = 1 := by
  unfold write
  split
  · exact Or.inl ⟨rfl, rfl⟩
  · split
    · exact Or.inl ⟨rfl, rfl⟩
    · exact Or.inr rfl

theorem writeLoop_shift (d : List Nat) :
    ∀ (s : WirePacker) (i : Nat),
      s.writeLoop d i = (i + (s.writeLoop d 0).1, (s.writeLoop d 0).2) := by
  induction d with
  | nil => intro s i; simp [writeLoop]
  | cons b d ih =>
    intro s i
    by_cases hr : (s.write b).1 = 0
    · simp [writeLoop, hr]
    · simp only [writeLoop, hr, if_false]
      rw [ih (s.write b).2 (i + 1), ih (s.write b).2 (0 + 1)]
      simp only [Prod.mk.injEq, and_true]
      omega

theorem writeBytes_cons (s : WirePacker) (b : Nat) (d : List Nat) :
    s.writeBytes (b :: d) =
      if (s.write b).1 = 0 then (0, (s.write b).2)
      else (1 + ((s.write b).2.writeBytes d).1, ((s.write b).2.writeBytes d).2) := by
  by_cases hr : (s.write b).1 = 0
  · simp [writeBytes, writeLoop, hr]
  · simp only [writeBytes, writeLoop, hr, if_false]
    rw [writeLoop_shift d (s.write b).2 (0 + 1)]

theorem writeSeq_cons (s : WirePacker) (b : Nat) (d : List Nat) :
    writeSeq s (b :: d) = writeSeq (s.write b).2 d := rfl

/-- C14. Multi-byte write refines iterated single-byte writes: for every state
`s` and byte sequence `d` of length `Q`, `write(d, Q)` returns a count `k ≤ Q`
such that `write(d[j])` is accepted for every `j < k` when the bytes are
written one at a time in order, and, when `k < Q`, `write(d[k])` is the first
one rejected; the resulting state is the state after `write(d[0])`, ...,
`write(d[k-1])` applied in order to `s`; and the result does not depend on
the bytes after `d[k]`, which are never offered to the buffer. -/
theorem writeBytes_refines (d : List Nat) : ∀ (s : WirePacker),
    (s.writeBytes d).1 ≤ d.length ∧
    (∀ j, j < (s.writeBytes d).1 → ((writeSeq s (d.take j)).write (d.getD j 0)).1 = 1) ∧
    ((s.writeBytes d).1 < d.length →
      ((writeSeq s (d.take (s.writeBytes d).1)).write (d.getD (s.writeBytes d).1 0)).1 = 0) ∧
    (s.writeBytes d).2 = writeSeq s (d.take (s.writeBytes d).1) ∧
    (∀ d2 : List Nat, (s.writeBytes d).1 < d.length →
      s.writeBytes (d.take ((s.writeBytes d).1 + 1) ++ d2) = s.writeBytes d) := by
  induction d with
  | nil =>
    intro s
    refine ⟨Nat.le_refl _, ?_, ?_, rfl, ?_⟩
    · intro j hj; exact absurd hj (Nat.not_lt_zero j)
    · intro hlt; exact absurd hlt (Nat.lt_irrefl _)
    · intro d2 hlt; exact absurd hlt (Nat.lt_irrefl _)
  | cons b d ih =>
    intro s
    rcases write_result s b with ⟨h0, hs⟩ | h1
    · have hw : s.writeBytes (b :: d) = (0, s) := by
        rw [writeBytes_cons, if_pos h0, hs]
      rw [hw]
      refine ⟨Nat.zero_le _, ?_, ?_, rfl, ?_⟩
      · intro j hj; exact absurd hj (Nat.not_lt_zero j)
      · intro _; exact h0
      · intro d2 _
        show s.writeBytes (b :: ([] ++ d2)) = (0, s)
        rw [writeBytes_cons, if_pos h0, hs]
    · have hne : ¬ (s.write b).1 = 0 := by omega
      obtain ⟨i1, i2, i3, i4, i5⟩ := ih (s.write b).2
      have hw : s.writeBytes (b :: d) =
          (1 + ((s.write b).2.writeBytes d).1, ((s.write b).2.writeBytes d).2) := by
        rw [writeBytes_cons, if_neg hne]
      rw [hw]
      have hk : 1 + ((s.write b).2.writeBytes d).1 = ((s.write b).2.writeBytes d).1 + 1 := by
        omega
      simp only [hk, List.length_cons]
      refine ⟨by omega, ?_, ?_, ?_, ?_⟩
      · intro j hj
        cases j with
        | zero => exact h1
        | succ j => exact i2 j (by omega)
      · intro hlt
        exact i3 (by omega)
      · simp only [List.take_succ_cons, writeSeq_cons]
        exact i4
      · intro d2 hlt
        simp only [List.take_succ_cons, List.cons_append]
        rw [writeBytes_cons, if_neg hne, i5 d2 (by omega), hk]

/-- C14, at a concrete input: three bytes offered to the reset zero buffer. -/
theorem writeBytes_refines_witness :
    (zeroState.reset.writeBytes [5, 6, 7]).2 =
      writeSeq zeroState.reset (List.take (zeroState.reset.writeBytes [5, 6, 7]).1 [5, 6, 7]) :=
  (writeBytes_refines [5, 6, 7] zeroState.reset).2.2.2.1

theorem wf_reset (s : WirePacker) (hbuf : s.buffer_.length = PACKER_BUFFER_LENGTH) :
    WellFormed s.reset := by
  simp only [PACKER_BUFFER_LENGTH] at hbuf
  refine ⟨by simpa [reset, PACKER_BUFFER_LENGTH] using hbuf, ?_, ?_, ?_⟩
  · show (s.buffer_.set 0 frameStart_)[0]? = _
    simp only [List.getElem?_set, if_true]
    rw [if_pos (by omega)]
  · intro _
    exact ⟨rfl, Nat.le_refl 2, by simp [reset, PACKER_BUFFER_LENGTH]⟩
  · intro hc
    simp [reset] at hc

theorem wf_write (s : WirePacker) (b : Nat) (h : WellFormed s) : WellFormed (s.write b).2 := by
  rcases write_result s b with ⟨-, hs⟩ | h1
  · rw [hs]; exact h
  · obtain ⟨hlen, h0, hopen, -⟩ := h
    simp only [PACKER_BUFFER_LENGTH] at hlen hopen
    by_cases ho : s.isPacketOpen_ = true
    · obtain ⟨hi, h2, h126⟩ := hopen ho
      by_cases ht : s.totalLength_ < 126
      · have hw : s.write b = (1, { s with buffer_ := s.buffer_.set s.index_ (b % 256)
                                           index_ := (s.index_ + 1) % 256
                                           totalLength_ := (s.index_ + 1) % 256 }) := by
          unfold write
          simp only [ho, PACKER_BUFFER_LENGTH]
          rw [if_neg (by simp), if_neg (by omega)]
        rw [hw]
        refine ⟨by simpa [PACKER_BUFFER_LENGTH] using hlen, ?_, ?_, ?_⟩
        · show (s.buffer_.set s.index_ (b % 256))[0]? = _
          simp only [List.getElem?_set]
          rw [if_neg (by omega)]; exact h0
        · intro _
          refine ⟨rfl, ?_, ?_⟩
          · show 2 ≤ (s.index_ + 1) % 256
            omega
          · show (s.index_ + 1) % 256 ≤ PACKER_BUFFER_LENGTH - 2
            simp only [PACKER_BUFFER_LENGTH]; omega
        · intro hc
          exact absurd (show s.isPacketOpen_ = false from hc) (by simp [ho])
      · have hw : s.write b = (0, s) := by
          unfold write
          simp only [ho, PACKER_BUFFER_LENGTH]
          rw [if_neg (by simp), if_pos (by omega)]
        rw [hw] at h1; simp at h1
    · have hw : s.write b = (0, s) := by
        unfold write
        rw [if_pos (by simpa using ho)]
      rw [hw] at h1; simp at h1

theorem wf_writeLoop (d : List Nat) :
    ∀ (s : WirePacker) (i : Nat), WellFormed s → WellFormed (s.writeLoop d i).2 := by
  induction d with
  | nil => intro s i h; exact h
  | cons b d ih =>
    intro s i h
    have hb := wf_write s b h
    by_cases hr : (s.write b).1 = 0
    · simpa [writeLoop, hr] using hb
    · simpa [writeLoop, hr] using ih (s.write b).2 (i + 1) hb

theorem wf_read (s : WirePacker) (h : WellFormed s) : WellFormed s.read.2 := by
  obtain ⟨hlen, h0, hopen, hclosed⟩ := h
  by_cases ho : s.isPacketOpen_ = true
  · have hr : s.read = (-1, s) := by simp [WirePacker.read, ho]
    rw [hr]; exact ⟨hlen, h0, hopen, hclosed⟩
  · have hc : s.isPacketOpen_ = false := by simpa using ho
    obtain ⟨hi, h4, h128, hb1, hbe⟩ := hclosed hc
    simp only [PACKER_BUFFER_LENGTH] at h128
    rw [read_closed_step s hc (by omega)]
    split
    · rename_i hlt
      refine ⟨hlen, h0, ?_, ?_⟩
      · intro ho2; exact absurd (show s.isPacketOpen_ = true from ho2) ho
      · intro _
        exact ⟨hlt, h4, by simpa [PACKER_BUFFER_LENGTH] using h128, hb1, hbe⟩
    · exact ⟨hlen, h0, hopen, hclosed⟩

theorem end_open_wf (crc8 : WireCrc) (s : WirePacker) (h : WellFormed s)
    (ho : s.isPacketOpen_ = true) :
    ∃ c, end_ crc8 s =
      { buffer_ := ((s.buffer_.set (s.index_ + 1) frameEnd_).set 1 (s.index_ + 2)).set
          s.index_ c
        index_ := 0
        totalLength_ := s.index_ + 2
        isPacketOpen_ := false } := by
  obtain ⟨-, -, hopen, -⟩ := h
  obtain ⟨hi, h2, h126⟩ := hopen ho
  simp only [PACKER_BUFFER_LENGTH] at h126
  have hi1 : (s.index_ + 1) % 256 = s.index_ + 1 := by omega
  have hi2 : (s.index_ + 1 + 1) % 256 = s.index_ + 2 := by omega
  refine ⟨(crc8.update (crc8.calc_ crc8.init [s.index_ + 2]).1
    ((((s.buffer_.set (s.index_ + 1) frameEnd_).set 1 (s.index_ + 2)).drop 2).take
      ((s.index_ + 2 + 256 - 4) % 256))).2 % 256, ?_⟩
  unfold end_
  simp only [hi1, hi2]
  rw [if_pos (by omega), show s.index_ + 2 - 2 = s.index_ by omega]

theorem wf_end (crc8 : WireCrc) (s : WirePacker) (h : WellFormed s)
    (ho : s.isPacketOpen_ = true) : WellFormed (end_ crc8 s) := by
  obtain ⟨c, hc⟩ := end_open_wf crc8 s h ho
  obtain ⟨hlen, h0, hopen, -⟩ := h
  obtain ⟨hi, h2, h126⟩ := hopen ho
  simp only [PACKER_BUFFER_LENGTH] at h126 hlen
  rw [hc]
  refine ⟨by simpa [PACKER_BUFFER_LENGTH] using hlen, ?_, ?_, ?_⟩
  · show (((s.buffer_.set (s.index_ + 1) frameEnd_).set 1 (s.index_ + 2)).set s.index_ c)[0]? = _
    simp only [List.getElem?_set]
    rw [if_neg (by omega), if_neg (by omega), if_neg (by omega)]
    exact h0
  · intro hcon
    exact absurd (show false = true from hcon) (by simp)
  · intro _
    refine ⟨Nat.zero_le _, ?_, ?_, ?_, ?_⟩
    · show 4 ≤ s.index_ + 2
      omega
    · show s.index_ + 2 ≤ PACKER_BUFFER_LENGTH
      simp only [PACKER_BUFFER_LENGTH]; omega
    · show (((s.buffer_.set (s.index_ + 1) frameEnd_).set 1 (s.index_ + 2)).set
        s.index_ c)[1]? = some (s.index_ + 2)
      simp only [List.getElem?_set, List.length_set]
      rw [if_neg (by omega), if_pos trivial, if_pos (by omega)]
    · show (((s.buffer_.set (s.index_ + 1) frameEnd_).set 1 (s.index_ + 2)).set
        s.index_ c)[s.index_ + 2 - 1]? = some frameEnd_
      simp only [List.getElem?_set, List.length_set]
      rw [if_neg (by omega), if_neg (by omega), if_pos (by omega), if_pos (by omega)]

theorem wf_step (crc8 : WireCrc) (s : WirePacker) (op : Op) (h : WellFormed s)
    (hend : op = Op.end_ → s.isPacketOpen_ = true) : WellFormed (step crc8 s op) := by
  cases op with
  | write b => exact wf_write s b h
  | writeBytes d => exact wf_writeLoop d s 0 h
  | read => exact wf_read s h
  | available => exact h
  | packetLength => exact h
  | reset => exact wf_reset s h.1
  | end_ => exact wf_end crc8 s h (hend rfl)

theorem wf_run (crc8 : WireCrc) (ops : List Op) :
    ∀ (s : WirePacker), WellFormed s → endOnlyOpen crc8 s ops = true →
      WellFormed (run crc8 s ops) := by
  induction ops with
  | nil => intro s h _; exact h
  | cons op ops ih =>
    intro s h hend
    cases op with
    | end_ =>
      simp only [endOnlyOpen, Bool.and_eq_true] at hend
      exact ih _ (wf_end crc8 s h hend.1) hend.2
    | write b => exact ih _ (wf_step crc8 s _ h (by simp)) hend
    | writeBytes d => exact ih _ (wf_step crc8 s _ h (by simp)) hend
    | read => exact ih _ (wf_step crc8 s _ h (by simp)) hend
    | available => exact ih _ (wf_step crc8 s _ h (by simp)) hend
    | packetLength => exact ih _ (wf_step crc8 s _ h (by simp)) hend
    | reset => exact ih _ (wf_step crc8 s _ h (by simp)) hend

/-- C15. Well-formedness of reachable states: every state reached from the
constructor (`reset()` on a 128-byte buffer of any content) by a sequence of
`write`, `read`, `available`, `packetLength`, `reset` and `end()` calls in
which `end()` is only called on an open packer satisfies: `buffer_[0] = 0x02`;
if open, write position = accumulated length and `2 ≤ length ≤ 126`; if
closed, cursor `≤` total length, `4 ≤` total length `≤ 128`,
`buffer_[1]` = total length and `buffer_[total length - 1] = 0x04`. -/
theorem reachable_wellFormed (crc8 : WireCrc) (s0 : WirePacker) (ops : List Op)
    (hbuf : s0.buffer_.length = PACKER_BUFFER_LENGTH)
    (hend : endOnlyOpen crc8 s0.reset ops = true) :
    (run crc8 s0.reset ops).buffer_[0]? = some 0x02 ∧
    ((run crc8 s0.reset ops).isPacketOpen_ = true →
      (run crc8 s0.reset ops).index_ = (run crc8 s0.reset ops).totalLength_ ∧
      2 ≤ (run crc8 s0.reset ops).totalLength_ ∧
      (run crc8 s0.reset ops).totalLength_ ≤ 126) ∧
    ((run crc8 s0.reset ops).isPacketOpen_ = false →
      (run crc8 s0.reset ops).index_ ≤ (run crc8 s0.reset ops).totalLength_ ∧
      4 ≤ (run crc8 s0.reset ops).totalLength_ ∧
      (run crc8 s0.reset ops).totalLength_ ≤ 128 ∧
      (run crc8 s0.reset ops).buffer_[1]? = some (run crc8 s0.reset ops).totalLength_ ∧
      (run crc8 s0.reset ops).buffer_[(run crc8 s0.reset ops).totalLength_ - 1]? =
        some 0x04) := by
  obtain ⟨-, h0, hopen, hclosed⟩ := wf_run crc8 ops s0.reset (wf_reset s0 hbuf) hend
  exact ⟨h0, hopen, hclosed⟩

/-- C15, at a concrete input: write, close, read, reset, write again, close. -/
theorem reachable_wellFormed_witness :
    (run sumCrc zeroState.reset [Op.writeBytes [0x41, 0x42], Op.end_, Op.read, Op.available,
      Op.reset, Op.write 9, Op.packetLength, Op.end_]).buffer_[0]? = some 0x02 :=
  (reachable_wellFormed sumCrc zeroState [Op.writeBytes [0x41, 0x42], Op.end_, Op.read,
    Op.available, Op.reset, Op.write 9, Op.packetLength, Op.end_]
    (by simp [zeroState, PACKER_BUFFER_LENGTH]) (by decide)).1

theorem write_store_coherent (s : WirePacker) (b : Nat) :
    s.write b = match writeStoreIndex s with
      | some i => (1, { s with buffer_ := s.buffer_.set i (b % 256)
                               index_ := (s.index_ + 1) % 256
                               totalLength_ := (s.index_ + 1) % 256 })
      | none => (0, s) := by
  unfold write writeStoreIndex
  split
  · rfl
  · split <;> rfl

theorem read_load_coherent (s : WirePacker) :
    s.read = match readLoadIndex s with
      | some i => (((s.buffer_.getD i 0 : Nat) : Int), { s with index_ := (s.index_ + 1) % 256 })
      | none => (-1, s) := by
  unfold WirePacker.read readLoadIndex
  split <;> rfl

theorem end_access_coherent (crc8 : WireCrc) (s : WirePacker) :
    endStoreIndices s =
      [(((s.index_ + 1) % 256 : Nat) : Int), 1, ((end_ crc8 s).totalLength_ : Int) - 2] ∧
    endPayloadLength s = ((end_ crc8 s).totalLength_ + 256 - 4) % 256 ∧
    (end_ crc8 s).totalLength_ = ((s.index_ + 1) % 256 + 1) % 256 :=
  ⟨rfl, rfl, rfl⟩

theorem wf_accesses (crc8 : WireCrc) (s : WirePacker) (h : WellFormed s) :
    (∀ i, writeStoreIndex s = some i → i < PACKER_BUFFER_LENGTH ∧ i + 1 < 256) ∧
    (∀ i, readLoadIndex s = some i → i < PACKER_BUFFER_LENGTH ∧ i + 1 < 256) ∧
    (s.isPacketOpen_ = true →
      (∀ i ∈ endStoreIndices s, 0 ≤ i ∧ i < (PACKER_BUFFER_LENGTH : Int)) ∧
      s.index_ + 1 < 256 ∧ (s.index_ + 1) % 256 + 1 < 256 ∧
      4 ≤ (end_ crc8 s).totalLength_ ∧
      endPayloadLength s + 4 = (end_ crc8 s).totalLength_ ∧
      2 + endPayloadLength s ≤ PACKER_BUFFER_LENGTH) := by
  obtain ⟨-, -, hopen, hclosed⟩ := h
  simp only [PACKER_BUFFER_LENGTH] at hopen hclosed ⊢
  refine ⟨?_, ?_, ?_⟩
  · intro i hi
    unfold writeStoreIndex at hi
    by_cases ho : s.isPacketOpen_ = true
    · obtain ⟨hidx, h2, h126⟩ := hopen ho
      simp only [ho, PACKER_BUFFER_LENGTH] at hi
      rw [if_neg (by simp)] at hi
      by_cases ht : s.totalLength_ ≥ 128 - 2
      · rw [if_pos ht] at hi; simp at hi
      · rw [if_neg ht] at hi
        simp only [Option.some.injEq] at hi
        omega
    · rw [if_pos (by simpa using ho)] at hi; simp at hi
  · intro i hi
    unfold readLoadIndex at hi
    by_cases ho : s.isPacketOpen_ = true
    · rw [if_neg (by simp [ho])] at hi; simp at hi
    · have hc : s.isPacketOpen_ = false := by simpa using ho
      obtain ⟨hidx, h4, h128, -, -⟩ := hclosed hc
      by_cases hlt : s.index_ < s.totalLength_
      · rw [if_pos (by simp [hc, hlt])] at hi
        simp only [Option.some.injEq] at hi
        omega
      · rw [if_neg (by simp [hc, hlt])] at hi; simp at hi
  · intro ho
    obtain ⟨hidx, h2, h126⟩ := hopen ho
    have hi1 : (s.index_ + 1) % 256 = s.index_ + 1 := by omega
    have hi2 : (s.index_ + 1 + 1) % 256 = s.index_ + 2 := by omega
    have htl : (end_ crc8 s).totalLength_ = s.index_ + 2 := by
      show ((s.index_ + 1) % 256 + 1) % 256 = _
      rw [hi1, hi2]
    have hpl : endPayloadLength s = s.index_ - 2 := by
      show (((s.index_ + 1) % 256 + 1) % 256 + 256 - 4) % 256 = _
      rw [hi1, hi2]; omega
    refine ⟨?_, by omega, by omega, by omega, by omega, by omega⟩
    intro i hi
    simp only [endStoreIndices, hi1, hi2, List.mem_cons, List.mem_singleton,
      List.not_mem_nil, or_false] at hi
    rcases hi with rfl | rfl | rfl
    · omega
    · omega
    · omega

/-- C16. Buffer accesses stay in bounds: on every state reached from the
constructor with `end()` only called on an open packer, the index
`write(byte)` stores at and the index `read()` loads from are below 128 and
their `++index_` does not wrap; and when the state is open, so that `end()`
may be called, the three indices `end()` stores at (end-byte slot, offset 1,
checksum slot `index_ - 2`) lie in `0 .. 127`, neither `++index_` wraps,
`totalLength_ - 4` does not wrap (the total length is at least 4 and the
payload length plus 4 equals it), and the payload range handed to the
checksum (offset 2, that length) ends inside the 128-byte buffer. -/
theorem accesses_in_bounds (crc8 : WireCrc) (s0 : WirePacker) (ops : List Op)
    (hbuf : s0.buffer_.length = PACKER_BUFFER_LENGTH)
    (hend : endOnlyOpen crc8 s0.reset ops = true) :
    (∀ i, writeStoreIndex (run crc8 s0.reset ops) = some i → i < 128 ∧ i + 1 < 256) ∧
    (∀ i, readLoadIndex (run crc8 s0.reset ops) = some i → i < 128 ∧ i + 1 < 256) ∧
    ((run crc8 s0.reset ops).isPacketOpen_ = true →
      (∀ i ∈ endStoreIndices (run crc8 s0.reset ops), 0 ≤ i ∧ i < 128) ∧
      (run crc8 s0.reset ops).index_ + 1 < 256 ∧
      ((run crc8 s0.reset ops).index_ + 1) % 256 + 1 < 256 ∧
      4 ≤ (end_ crc8 (run crc8 s0.reset ops)).totalLength_ ∧
      endPayloadLength (run crc8 s0.reset ops) + 4 =
        (end_ crc8 (run crc8 s0.reset ops)).totalLength_ ∧
      2 + endPayloadLength (run crc8 s0.reset ops) ≤ 128) :=
  wf_accesses crc8 _ (wf_run crc8 ops s0.reset (wf_reset s0 hbuf) hend)

/-- C16, at a concrete input: after `write("AB")` the open packer stores the
next byte at offset 4. -/
theorem accesses_in_bounds_witness :
    writeStoreIndex (run sumCrc zeroState.reset [Op.writeBytes [0x41, 0x42]]) = some 4 ∧
    (4 < 128 ∧ 4 + 1 < 256) :=
  ⟨rfl, (accesses_in_bounds sumCrc zeroState [Op.writeBytes [0x41, 0x42]]
    (by simp [zeroState, PACKER_BUFFER_LENGTH]) (by decide)).1 4 rfl⟩

/-- C17. `packetLength()` is preserved by closing: for every open state
reached from the constructor (with `end()` only called on an open packer),
the value `packetLength()` returns just before `end()` equals the value it
returns just after `end()`; both are the write position plus 2. -/
theorem packetLength_end (crc8 : WireCrc) (s0 : WirePacker) (ops : List Op)
    (hbuf : s0.buffer_.length = PACKER_BUFFER_LENGTH)
    (hend : endOnlyOpen crc8 s0.reset ops = true)
    (ho : (run crc8 s0.reset ops).isPacketOpen_ = true) :
    (end_ crc8 (run crc8 s0.reset ops)).packetLength = (run crc8 s0.reset ops).packetLength ∧
    (run crc8 s0.reset ops).packetLength = (run crc8 s0.reset ops).index_ + 2 ∧
    (end_ crc8 (run crc8 s0.reset ops)).packetLength = (run crc8 s0.reset ops).index_ + 2 := by
  have hwf := wf_run crc8 ops s0.reset (wf_reset s0 hbuf) hend
  obtain ⟨c, hc⟩ := end_open_wf crc8 _ hwf ho
  obtain ⟨-, -, hopen, -⟩ := hwf
  obtain ⟨hi, -, -⟩ := hopen ho
  have hbefore : (run crc8 s0.reset ops).packetLength = (run crc8 s0.reset ops).index_ + 2 := by
    simp only [packetLength, ho, if_true, hi]
  have hafter : (end_ crc8 (run crc8 s0.reset ops)).packetLength =
      (run crc8 s0.reset ops).index_ + 2 := by
    rw [hc]; rfl
  exact ⟨by rw [hafter, hbefore], hbefore, hafter⟩

/-- C17, at a concrete input: the packer holding `[0x41, 0x42]` reports 6
before and after `end()`. -/
theorem packetLength_end_witness :
    (end_ sumCrc (run sumCrc zeroState.reset [Op.writeBytes [0x41, 0x42]])).packetLength = 6 ∧
    (run sumCrc zeroState.reset [Op.writeBytes [0x41, 0x42]]).packetLength = 6 :=
  have h := packetLength_end sumCrc zeroState [Op.writeBytes [0x41, 0x42]]
    (by simp [zeroState, PACKER_BUFFER_LENGTH]) (by decide) (by decide)
  ⟨h.2.2, h.2.1⟩

/-- C18. Effect of a second `end()` on the counters: for every closed state
with read cursor `r ≤ 126`, `end()` keeps the state closed, resets the cursor
to 0 and sets the total length to `r + 2`, whatever the total length was, so
`packetLength()` and `available()` become `r + 2`; when `r < 2` the `uint8_t`
payload length `totalLength_ - 4` wraps to `254 + r`, so the range handed to
the checksum (offset 2, length 254 or 255) ends past the 128-byte buffer. -/
theorem end_again_counters (crc8 : WireCrc) (s : WirePacker)
    (_hc : s.isPacketOpen_ = false) (hr : s.index_ ≤ 126) :
    (end_ crc8 s).isPacketOpen_ = false ∧ (end_ crc8 s).index_ = 0 ∧
    (end_ crc8 s).totalLength_ = s.index_ + 2 ∧
    (end_ crc8 s).packetLength = s.index_ + 2 ∧
    (end_ crc8 s).available = s.index_ + 2 ∧
    (s.index_ < 2 →
      endPayloadLength s = 254 + s.index_ ∧
      (endPayloadLength s = 254 ∨ endPayloadLength s = 255) ∧
      PACKER_BUFFER_LENGTH < 2 + endPayloadLength s) := by
  have hi1 : (s.index_ + 1) % 256 = s.index_ + 1 := by omega
  have hi2 : (s.index_ + 1 + 1) % 256 = s.index_ + 2 := by omega
  have htl : (end_ crc8 s).totalLength_ = s.index_ + 2 := by
    show ((s.index_ + 1) % 256 + 1) % 256 = _
    rw [hi1, hi2]
  have hidx : (end_ crc8 s).index_ = 0 := rfl
  have hcl : (end_ crc8 s).isPacketOpen_ = false := rfl
  refine ⟨hcl, hidx, htl, ?_, ?_, ?_⟩
  · simp only [packetLength, hcl, Bool.false_eq_true, if_false, htl]
  · simp only [available, hcl, Bool.false_eq_true, if_false, htl, hidx]
    have h1 : (((s.index_ + 2 : Nat) : Int) - ((0 : Nat) : Int)) = ((s.index_ + 2 : Nat) : Int) := by
      omega
    rw [h1, Int.emod_eq_of_lt (by omega) (by omega)]
    omega
  · intro hlt
    have hpl : endPayloadLength s = 254 + s.index_ := by
      show (((s.index_ + 1) % 256 + 1) % 256 + 256 - 4) % 256 = _
      rw [hi1, hi2]; omega
    simp only [PACKER_BUFFER_LENGTH]
    omega

/-- C18, at a concrete input: a second `end()` right after the first one
(cursor 0) on the frame of `[0x41, 0x42]` leaves total length 2 and hands 254
bytes to the checksum. -/
theorem end_again_counters_witness :
    (end_ sumCrc (end_ sumCrc (zeroState.reset.writeBytes [0x41, 0x42]).2)).totalLength_ = 2 ∧
    endPayloadLength (end_ sumCrc (zeroState.reset.writeBytes [0x41, 0x42]).2) = 254 :=
  have h := end_again_counters sumCrc (end_ sumCrc (zeroState.reset.writeBytes [0x41, 0x42]).2)
    rfl (by decide)
  ⟨h.2.2.1, (h.2.2.2.2.2 (by decide)).1⟩
